import Mathlib

/-!
# Verification of the ScholarMIS app-installer subsystem

Shallow embedding of `scholarmis/apps/installer.py`, `apps.py` and
`tasks.py`: the configuration loaders (options, settings, permissions,
fixtures, periodic tasks), the `AppInstaller` orchestrator, the
post-migrate hook, and the `cleanup_exports_folder` task.

The database is modelled as explicit state (association-list tables),
Django ORM calls `get_or_create` / `update_or_create` as pure functions
on those tables, and Python exceptions as `Except` values.  External
library primitives used by the code (`json.loads`, `yaml.safe_load`,
`django.utils.text.slugify`, `celery.schedules.crontab`,
`call_command("loaddata")`) are modelled at the granularity the
installer observes them.
-/

set_option autoImplicit false
set_option linter.unusedSectionVars false

namespace Scholarmis

/-- A parsed JSON / YAML value, as produced by `json.loads` /
`yaml.safe_load`.  Arrays and objects are represented as cons-chains so
that decidable equality can be derived; `anil`/`acons` build arrays,
`onil`/`ocons` build objects.  Objects keep insertion order (Python
dicts are ordered) and have unique keys.  Numbers are restricted to
integers, which is all the installer's configuration files use. -/
inductive JVal where
  | jnull
  | jbool (b : Bool)
  | jnum (n : Int)
  | jstr (s : String)
  | anil
  | acons (hd : JVal) (tl : JVal)
  | onil
  | ocons (k : String) (v : JVal) (tl : JVal)
  deriving DecidableEq, Repr

namespace JVal

/-- Build an array value from a list. -/
def arr : List JVal → JVal
  | [] => .anil
  | x :: xs => .acons x (arr xs)

/-- Build an object value from an association list. -/
def obj : List (String × JVal) → JVal
  | [] => .onil
  | (k, v) :: fs => .ocons k v (obj fs)

/-- View a value as a Python list (used when the code iterates over it).
Returns `none` when the value is not a list. -/
def asList : JVal → Option (List JVal)
  | .anil => some []
  | .acons x tl => (asList tl).map (x :: ·)
  | _ => none

/-- View a value as a Python dict (association list in insertion
order).  Returns `none` when the value is not a dict. -/
def asObj : JVal → Option (List (String × JVal))
  | .onil => some []
  | .ocons k v tl => (asObj tl).map ((k, v) :: ·)
  | _ => none

/-- Python truthiness of a parsed value (`if settings and ...`). -/
def truthy : JVal → Bool
  | .jnull => false
  | .jbool b => b
  | .jnum n => n ≠ 0
  | .jstr s => s ≠ ""
  | .anil => false
  | .acons _ _ => true
  | .onil => false
  | .ocons _ _ _ => true

/-- Dictionary lookup `d.get(k)` / `k in d` on a parsed object's
association list.  Python dicts have unique keys, so first-match lookup
is exact. -/
def getKey (fields : List (String × JVal)) (k : String) : Option JVal :=
  (fields.find? (fun f => f.1 = k)).map (·.2)

/-- Python `str(...)` applied to a parsed value, as used by
`str(details.get("schedule", ""))` and by `slugify`.  Faithful on the
scalar values the configuration files contain. -/
def pyStr : JVal → String
  | .jnull => "None"
  | .jbool b => if b then "True" else "False"
  | .jnum n => toString n
  | .jstr s => s
  | .anil | .acons _ _ => "[...]"
  | .onil | .ocons _ _ _ => "{...}"

end JVal

/-- Worker for `pySplit`: accumulate the current token (reversed) while
scanning the characters. -/
def pySplitGo (cur : List Char) : List Char → List String
  | [] => if cur.isEmpty then [] else [⟨cur.reverse⟩]
  | c :: cs =>
    if c.isWhitespace then
      if cur.isEmpty then pySplitGo [] cs else ⟨cur.reverse⟩ :: pySplitGo [] cs
    else
      pySplitGo (c :: cur) cs

/-- Python `str.split()` with no separator: the maximal runs of
non-whitespace characters, in order (empty fields dropped). -/
def pySplit (s : String) : List String :=
  pySplitGo [] s.data

/-- Python `str.isdigit()` restricted to ASCII digit strings: true on a
non-empty string all of whose characters are digits. -/
def pyIsdigit (s : String) : Bool :=
  !s.data.isEmpty && s.data.all Char.isDigit

/-- Characters kept by Django `slugify`'s first pass
(`re.sub(r"[^\w\s-]", "", ...)`), over the ASCII range. -/
def slugKeep (c : Char) : Bool :=
  c.isAlphanum || c = '_' || c = '-' || c.isWhitespace

/-- A character collapsed by `slugify`'s second pass: hyphen or
whitespace. -/
def dashLike (c : Char) : Bool :=
  c = '-' || c.isWhitespace

/-- Worker for `collapseDashRuns`; the flag records whether the previous
character was part of a hyphen/whitespace run already emitted as `-`. -/
def collapseGo : Bool → List Char → List Char
  | _, [] => []
  | inRun, c :: cs =>
    if dashLike c then
      if inRun then collapseGo true cs else '-' :: collapseGo true cs
    else
      c :: collapseGo false cs

/-- Collapse every run of hyphens/whitespace into a single hyphen
(`re.sub(r"[-\s]+", "-", ...)`). -/
def collapseDashRuns (cs : List Char) : List Char :=
  collapseGo false cs

/-- `value.strip("-_")`: drop leading and trailing hyphens/underscores. -/
def stripDashUnderscore (cs : List Char) : List Char :=
  ((cs.dropWhile (fun c => c = '-' || c = '_')).reverse.dropWhile
    (fun c => c = '-' || c = '_')).reverse

/-- Model of `django.utils.text.slugify(value, allow_unicode=True)` on
ASCII input: lowercase, remove characters that are not alphanumerics,
underscores, hyphens or whitespace, collapse hyphen/whitespace runs to a
single hyphen, and strip leading/trailing hyphens and underscores.
(NFKC normalisation is the identity on ASCII.) -/
def slugify (s : String) : String :=
  ⟨stripDashUnderscore (collapseDashRuns ((s.data.map Char.toLower).filter slugKeep))⟩

/-- Python `s.replace("-", "_")` for the single-character pattern. -/
def replaceDash (s : String) : String :=
  ⟨s.data.map (fun c => if c = '-' then '_' else c)⟩

/-- The slug the options loader derives from a record's `"name"` value:
`slugify(record["name"], allow_unicode=True).replace("-", "_")`
(installer.py line 89). -/
def derivedSlug (v : JVal) : String :=
  replaceDash (slugify v.pyStr)

example : derivedSlug (.jstr "Linear Algebra") = "linear_algebra" := by decide
example : derivedSlug (.jstr "Math") = "math" := by decide

/-! ## Association-list tables and the Django ORM upsert primitives -/

namespace Table

variable {κ δ : Type} [DecidableEq κ]

/-- The payload of the first row with key `k` (`objects.get`-style
lookup). -/
def atKey (T : List (κ × δ)) (k : κ) : Option δ :=
  (T.find? (fun r => decide (r.1 = k))).map (·.2)

/-- The keys of a table, in row order. -/
def keys (T : List (κ × δ)) : List κ := T.map (·.1)

/-- Whether some row has key `k`. -/
def hasKey (T : List (κ × δ)) (k : κ) : Bool := T.any (fun r => decide (r.1 = k))

/-- Overwrite the payload of the rows with key `k` (under unique keys,
of the single such row). -/
def setKey (T : List (κ × δ)) (k : κ) (d : δ) : List (κ × δ) :=
  T.map (fun r => if r.1 = k then (k, d) else r)

/-- `update_or_create` keyed by `k`, whose `defaults` overwrite the
whole non-key payload, on a table with unique keys: update the matching
row in place, or append a freshly created one. -/
def uocPure (k : κ) (d : δ) (T : List (κ × δ)) : List (κ × δ) :=
  if hasKey T k then setKey T k d else T ++ [(k, d)]

/-- Payload of the last entry of `es` carrying key `k`. -/
def lastVal (es : List (κ × δ)) (k : κ) : Option δ :=
  match es with
  | [] => none
  | e :: rest => (lastVal rest k).or (if e.1 = k then some e.2 else none)

/-- Run a list of `update_or_create` operations left to right. -/
def applyUoc (es : List (κ × δ)) (T : List (κ × δ)) : List (κ × δ) :=
  match es with
  | [] => T
  | (k, d) :: rest => applyUoc rest (uocPure k d T)

/-- Keys of `es` not yet present, in first-occurrence order. -/
def newKeys (es : List (κ × δ)) (ks : List κ) : List κ :=
  match es with
  | [] => []
  | (k, _) :: rest => if k ∈ ks then newKeys rest ks else k :: newKeys rest (ks ++ [k])

@[simp] theorem keys_nil : keys ([] : List (κ × δ)) = [] := rfl

@[simp] theorem keys_cons (r : κ × δ) (T : List (κ × δ)) :
    keys (r :: T) = r.1 :: keys T := rfl

@[simp] theorem keys_append (T U : List (κ × δ)) :
    keys (T ++ U) = keys T ++ keys U := by
  simp [keys]

theorem hasKey_iff (T : List (κ × δ)) (k : κ) :
    hasKey T k = true ↔ k ∈ keys T := by
  induction T with
  | nil => simp [hasKey, keys]
  | cons r T ih =>
    simp only [hasKey, List.any_cons, keys_cons, List.mem_cons, Bool.or_eq_true,
      decide_eq_true_eq] at *
    constructor
    · rintro (h | h)
      · exact Or.inl h.symm
      · exact Or.inr (ih.mp h)
    · rintro (h | h)
      · exact Or.inl h.symm
      · exact Or.inr (ih.mpr h)

@[simp] theorem keys_setKey (T : List (κ × δ)) (k : κ) (d : δ) :
    keys (setKey T k d) = keys T := by
  induction T with
  | nil => rfl
  | cons r T ih =>
    by_cases h : r.1 = k <;> simp [setKey, keys, h] at * <;> simpa [setKey, keys] using ih

@[simp] theorem atKey_nil (k : κ) : atKey ([] : List (κ × δ)) k = none := rfl

theorem atKey_cons (r : κ × δ) (T : List (κ × δ)) (k : κ) :
    atKey (r :: T) k = if r.1 = k then some r.2 else atKey T k := by
  by_cases h : r.1 = k <;> simp [atKey, List.find?_cons, h]

theorem atKey_append_left (T U : List (κ × δ)) (k : κ) (h : k ∈ keys T) :
    atKey (T ++ U) k = atKey T k := by
  induction T with
  | nil => simp [keys] at h
  | cons r T ih =>
    by_cases hr : r.1 = k
    · simp [atKey_cons, hr]
    · simp only [keys_cons, List.mem_cons] at h
      rcases h with h | h
      · exact absurd h.symm hr
      · simpa [atKey_cons, hr] using ih h

theorem atKey_append_right (T U : List (κ × δ)) (k : κ) (h : ¬ k ∈ keys T) :
    atKey (T ++ U) k = atKey U k := by
  induction T with
  | nil => rfl
  | cons r T ih =>
    simp only [keys_cons, List.mem_cons] at h
    push_neg at h
    have hr : ¬ r.1 = k := fun hh => h.1 hh.symm
    simpa [atKey_cons, hr] using ih h.2

theorem atKey_eq_none (T : List (κ × δ)) (k : κ) (h : ¬ k ∈ keys T) :
    atKey T k = none := by
  simpa using atKey_append_right T [] k h

@[simp] theorem hasKey_cons (r : κ × δ) (T : List (κ × δ)) (k : κ) :
    hasKey (r :: T) k = (decide (r.1 = k) || hasKey T k) := by
  simp [hasKey]

@[simp] theorem setKey_cons (r : κ × δ) (T : List (κ × δ)) (k : κ) (d : δ) :
    setKey (r :: T) k d = (if r.1 = k then (k, d) else r) :: setKey T k d := rfl

theorem atKey_setKey (T : List (κ × δ)) (k k' : κ) (d : δ) :
    atKey (setKey T k d) k' =
      if k' = k then (if hasKey T k then some d else none) else atKey T k' := by
  induction T with
  | nil => by_cases h : k' = k <;> simp [setKey, hasKey, h, atKey]
  | cons r T ih =>
    by_cases hr : r.1 = k
    · by_cases hk : k' = k
      · subst hk
        simp [atKey_cons, hr]
      · have hrk : ¬ r.1 = k' := fun hh => hk (hh.symm.trans hr)
        have hkk : ¬ k = k' := fun hh => hk hh.symm
        simp [atKey_cons, hr, hk, hkk, hrk, ih]
    · by_cases hk : k' = k
      · subst hk
        simp [atKey_cons, hr, ih]
      · simp [atKey_cons, hr, hk, ih]

theorem or_or_self {α : Type} (a b : Option α) : a.or (a.or b) = a.or b := by
  cases a <;> rfl

theorem or_assoc' {α : Type} (a b c : Option α) : (a.or b).or c = a.or (b.or c) := by
  cases a <;> rfl

theorem keys_uocPure (k : κ) (d : δ) (T : List (κ × δ)) :
    keys (uocPure k d T) = if hasKey T k then keys T else keys T ++ [k] := by
  by_cases h : hasKey T k <;> simp [uocPure, h]

theorem atKey_uocPure (k : κ) (d : δ) (T : List (κ × δ)) (k' : κ) :
    atKey (uocPure k d T) k' = if k' = k then some d else atKey T k' := by
  by_cases h : hasKey T k
  · rw [uocPure, if_pos h, atKey_setKey]
    by_cases hk : k' = k <;> simp [hk, h]
  · rw [uocPure, if_neg h]
    have hmem : ¬ k ∈ keys T := fun hm => h ((hasKey_iff T k).mpr hm)
    by_cases hk : k' = k
    · subst hk
      rw [atKey_append_right T _ k' hmem]
      simp [atKey_cons]
    · by_cases hm : k' ∈ keys T
      · simp [atKey_append_left T _ k' hm, hk]
      · have hkk : ¬ k = k' := fun hh => hk hh.symm
        rw [atKey_append_right T _ k' hm, atKey_eq_none T k' hm]
        simp [atKey_cons, hkk, hk]

theorem atKey_applyUoc (es : List (κ × δ)) (T : List (κ × δ)) (k : κ) :
    atKey (applyUoc es T) k = (lastVal es k).or (atKey T k) := by
  induction es generalizing T with
  | nil => simp [applyUoc, lastVal]
  | cons e rest ih =>
    obtain ⟨k₀, d₀⟩ := e
    rw [applyUoc, ih, atKey_uocPure, lastVal, or_assoc']
    by_cases hk : k = k₀
    · subst hk
      simp
    · have hkk : ¬ k₀ = k := fun hh => hk hh.symm
      simp [hk, hkk]

theorem keys_applyUoc (es : List (κ × δ)) (T : List (κ × δ)) :
    keys (applyUoc es T) = keys T ++ newKeys es (keys T) := by
  induction es generalizing T with
  | nil => simp [applyUoc, newKeys]
  | cons e rest ih =>
    obtain ⟨k₀, d₀⟩ := e
    rw [applyUoc, ih, keys_uocPure, newKeys]
    by_cases h : hasKey T k₀
    · simp [h, (hasKey_iff T k₀).mp h]
    · have hm : ¬ k₀ ∈ keys T := fun hm => h ((hasKey_iff T k₀).mpr hm)
      simp [h, hm]

theorem mem_keys_applyUoc_of_entry (es : List (κ × δ)) (ks : List κ) (k : κ)
    (h : k ∈ keys es) : k ∈ ks ++ newKeys es ks := by
  induction es generalizing ks with
  | nil => simp [keys] at h
  | cons e rest ih =>
    obtain ⟨k₀, d₀⟩ := e
    simp only [keys_cons, List.mem_cons] at h
    rw [newKeys]
    by_cases hk : k₀ ∈ ks
    · rcases h with h | h
      · subst h; simp [hk]
      · simpa [hk] using ih ks h
    · rcases h with h | h
      · subst h; simp [hk]
      · have := ih (ks ++ [k₀]) h
        simp only [List.mem_append, List.mem_singleton] at this ⊢
        rcases this with (h' | h') | h' <;> simp [hk, h']

theorem newKeys_eq_nil (es : List (κ × δ)) (ks : List κ)
    (h : ∀ k ∈ keys es, k ∈ ks) : newKeys es ks = [] := by
  induction es generalizing ks with
  | nil => rfl
  | cons e rest ih =>
    obtain ⟨k₀, d₀⟩ := e
    have hk : k₀ ∈ ks := h k₀ (by simp [keys])
    rw [newKeys, if_pos hk]
    exact ih ks (fun k hm => h k (by simp [keys] at hm ⊢; exact Or.inr hm))

theorem newKeys_nodup_disjoint (es : List (κ × δ)) (ks : List κ) :
    (newKeys es ks).Nodup ∧ ∀ k ∈ newKeys es ks, ¬ k ∈ ks := by
  induction es generalizing ks with
  | nil => simp [newKeys]
  | cons e rest ih =>
    obtain ⟨k₀, d₀⟩ := e
    rw [newKeys]
    by_cases hk : k₀ ∈ ks
    · simpa [hk] using ih ks
    · rw [if_neg hk]
      obtain ⟨hnd, hdis⟩ := ih (ks ++ [k₀])
      refine ⟨List.Nodup.cons ?_ hnd, ?_⟩
      · intro hmem
        exact hdis k₀ hmem (by simp)
      · intro k hm
        rcases List.mem_cons.mp hm with h | h
        · subst h; exact hk
        · intro hks
          exact hdis k h (by simp [hks])

theorem nodup_keys_applyUoc (es : List (κ × δ)) (T : List (κ × δ))
    (h : (keys T).Nodup) : (keys (applyUoc es T)).Nodup := by
  rw [keys_applyUoc]
  obtain ⟨hnd, hdis⟩ := newKeys_nodup_disjoint es (keys T)
  exact List.Nodup.append h hnd (fun k hk₁ hk₂ => hdis k hk₂ hk₁)

theorem table_ext (T₁ T₂ : List (κ × δ)) (hkeys : keys T₁ = keys T₂)
    (hnd : (keys T₁).Nodup) (hat : ∀ k, atKey T₁ k = atKey T₂ k) : T₁ = T₂ := by
  induction T₁ generalizing T₂ with
  | nil =>
    cases T₂ with
    | nil => rfl
    | cons r T₂' => simp [keys] at hkeys
  | cons r T₁' ih =>
    cases T₂ with
    | nil => simp [keys] at hkeys
    | cons r₂ T₂' =>
      obtain ⟨k, d⟩ := r
      obtain ⟨k₂, d₂⟩ := r₂
      simp only [keys_cons, List.cons.injEq] at hkeys
      obtain ⟨hkk, hkeys'⟩ := hkeys
      subst hkk
      simp only [keys_cons, List.nodup_cons] at hnd
      have hd : d = d₂ := by
        have := hat k
        simpa [atKey_cons] using this
      subst hd
      refine congrArg _ (ih T₂' hkeys' hnd.2 ?_)
      intro k''
      by_cases hk : k'' = k
      · subst hk
        rw [atKey_eq_none T₁' k'' hnd.1, atKey_eq_none T₂' k'' (hkeys' ▸ hnd.1)]
      · have hkk : ¬ k = k'' := fun hh => hk hh.symm
        have := hat k''
        simpa [atKey_cons, hkk] using this

/-- Replaying the same sequence of full-overwrite `update_or_create`
operations on its own output changes nothing. -/
theorem applyUoc_replay (es : List (κ × δ)) (T : List (κ × δ))
    (h : (keys T).Nodup) : applyUoc es (applyUoc es T) = applyUoc es T := by
  have hsub : ∀ k ∈ keys es, k ∈ keys (applyUoc es T) := by
    intro k hk
    rw [keys_applyUoc]
    exact mem_keys_applyUoc_of_entry es (keys T) k hk
  apply table_ext
  · rw [keys_applyUoc (T := applyUoc es T), newKeys_eq_nil es _ hsub, List.append_nil]
  · exact nodup_keys_applyUoc es _ (nodup_keys_applyUoc es T h)
  · intro k
    rw [atKey_applyUoc, atKey_applyUoc, or_or_self]

/-- Django `update_or_create` as the ORM executes it: `get` the rows
matching the key, update the single match (the `defaults` overwrite the
whole non-key payload) or create on none; several matching rows raise
`MultipleObjectsReturned`. -/
def uoc (k : κ) (d : δ) (T : List (κ × δ)) : Except String (List (κ × δ)) :=
  match T.filter (fun r => decide (r.1 = k)) with
  | [] => .ok (T ++ [(k, d)])
  | [_] => .ok (setKey T k d)
  | _ :: _ :: _ => .error "MultipleObjectsReturned"

theorem filter_key_eq_nil (T : List (κ × δ)) (k : κ) (h : ¬ hasKey T k) :
    T.filter (fun r => decide (r.1 = k)) = [] := by
  rw [List.filter_eq_nil_iff]
  intro r hr
  simp only [decide_eq_true_eq]
  intro hk
  exact h (by rw [hasKey, List.any_eq_true]; exact ⟨r, hr, by simp [hk]⟩)

theorem filter_key_length_le_one (T : List (κ × δ)) (k : κ)
    (h : (keys T).Nodup) : (T.filter (fun r => decide (r.1 = k))).length ≤ 1 := by
  induction T with
  | nil => simp
  | cons r T ih =>
    simp only [keys_cons, List.nodup_cons] at h
    by_cases hr : r.1 = k
    · have hnk : ¬ hasKey T k := by
        intro hh
        exact h.1 (hr ▸ (hasKey_iff T k).mp hh)
      simp [List.filter_cons, hr, filter_key_eq_nil T k hnk]
    · simpa [List.filter_cons, hr] using ih h.2

theorem uoc_of_nodup (k : κ) (d : δ) (T : List (κ × δ))
    (h : (keys T).Nodup) : uoc k d T = .ok (uocPure k d T) := by
  by_cases hk : hasKey T k
  · obtain ⟨r, hr, hrk⟩ : ∃ r ∈ T, r.1 = k := by
      have := hk
      rw [hasKey, List.any_eq_true] at this
      obtain ⟨r, hr, hrk⟩ := this
      exact ⟨r, hr, by simpa using hrk⟩
    cases hf : T.filter (fun r => decide (r.1 = k)) with
    | nil =>
      have hmem : r ∈ T.filter (fun r => decide (r.1 = k)) :=
        List.mem_filter.mpr ⟨hr, by simp [hrk]⟩
      rw [hf] at hmem
      simp at hmem
    | cons x xs =>
      cases xs with
      | nil => simp [uoc, hf, uocPure, hk]
      | cons y ys =>
        have := filter_key_length_le_one T k h
        rw [hf] at this
        simp at this
  · rw [uoc, filter_key_eq_nil T k hk]
    simp [uocPure, hk]

/-- Run a sequence of `update_or_create` operations with Python
exception semantics: on error stop, keeping the rows already written,
and report the error. -/
def applyUocE (es : List (κ × δ)) (T : List (κ × δ)) :
    List (κ × δ) × Option String :=
  match es with
  | [] => (T, none)
  | (k, d) :: rest =>
    match uoc k d T with
    | .ok T' => applyUocE rest T'
    | .error e => (T, some e)

theorem nodup_keys_uocPure (k : κ) (d : δ) (T : List (κ × δ))
    (h : (keys T).Nodup) : (keys (uocPure k d T)).Nodup :=
  nodup_keys_applyUoc [(k, d)] T h

theorem applyUocE_of_nodup (es : List (κ × δ)) (T : List (κ × δ))
    (h : (keys T).Nodup) : applyUocE es T = (applyUoc es T, none) := by
  induction es generalizing T with
  | nil => rfl
  | cons e rest ih =>
    obtain ⟨k, d⟩ := e
    rw [applyUocE, uoc_of_nodup k d T h]
    exact ih (uocPure k d T) (nodup_keys_uocPure k d T h)

end Table

/-- Django `get_or_create` whose lookup is the entire row: return the
table unchanged when exactly one equal row exists, append the row when
none does, and raise `MultipleObjectsReturned` on several. -/
def gocFull {ρ : Type} [DecidableEq ρ] (r : ρ) (T : List ρ) : Except String (List ρ) :=
  match T.filter (fun x => decide (x = r)) with
  | [] => .ok (T ++ [r])
  | [_] => .ok T
  | _ :: _ :: _ => .error "MultipleObjectsReturned"

/-- Number of rows equal to `r`. -/
def rowCount {ρ : Type} [DecidableEq ρ] (r : ρ) (T : List ρ) : Nat :=
  (T.filter (fun x => decide (x = r))).length

theorem rowCount_append {ρ : Type} [DecidableEq ρ] (r : ρ) (T U : List ρ) :
    rowCount r (T ++ U) = rowCount r T + rowCount r U := by
  simp [rowCount, List.filter_append]

theorem rowCount_singleton {ρ : Type} [DecidableEq ρ] (r x : ρ) :
    rowCount r [x] = if x = r then 1 else 0 := by
  by_cases h : x = r <;> simp [rowCount, List.filter_cons, h]

theorem gocFull_of_zero {ρ : Type} [DecidableEq ρ] (r : ρ) (T : List ρ)
    (h : rowCount r T = 0) : gocFull r T = .ok (T ++ [r]) := by
  rw [gocFull]
  rw [rowCount, List.length_eq_zero] at h
  simp [h]

theorem gocFull_of_one {ρ : Type} [DecidableEq ρ] (r : ρ) (T : List ρ)
    (h : rowCount r T = 1) : gocFull r T = .ok T := by
  rw [gocFull]
  rw [rowCount] at h
  obtain ⟨x, hx⟩ := List.length_eq_one.mp h
  simp [hx]

theorem gocFull_of_many {ρ : Type} [DecidableEq ρ] (r : ρ) (T : List ρ)
    (h : 2 ≤ rowCount r T) : gocFull r T = .error "MultipleObjectsReturned" := by
  rw [gocFull]
  rw [rowCount] at h
  cases hf : T.filter (fun x => decide (x = r)) with
  | nil => rw [hf] at h; simp at h
  | cons x xs =>
    cases xs with
    | nil => rw [hf] at h; simp at h
    | cons y ys => simp

theorem rowCount_gocFull_ok {ρ : Type} [DecidableEq ρ] (r r' : ρ) (T T' : List ρ)
    (h : 1 ≤ rowCount r T) (hok : gocFull r' T = .ok T') :
    rowCount r T' = rowCount r T := by
  rcases Nat.lt_or_ge (rowCount r' T) 1 with h0 | h1
  · have h0' : rowCount r' T = 0 := Nat.lt_one_iff.mp h0
    rw [gocFull_of_zero r' T h0'] at hok
    have hrr : ¬ r' = r := by
      intro hh
      rw [hh] at h0'
      omega
    cases hok
    rw [rowCount_append, rowCount_singleton]
    simp [hrr]
  · rcases Nat.lt_or_ge (rowCount r' T) 2 with h2 | h2
    · have h1' : rowCount r' T = 1 := by omega
      rw [gocFull_of_one r' T h1'] at hok
      cases hok
      rfl
    · rw [gocFull_of_many r' T h2] at hok
      cases hok

theorem rowCount_gocFull_self {ρ : Type} [DecidableEq ρ] (r : ρ) (T T' : List ρ)
    (hok : gocFull r T = .ok T') : 1 ≤ rowCount r T' ∧ rowCount r T' ≤ max 1 (rowCount r T) := by
  rcases Nat.lt_or_ge (rowCount r T) 1 with h0 | h1
  · have h0' : rowCount r T = 0 := Nat.lt_one_iff.mp h0
    rw [gocFull_of_zero r T h0'] at hok
    cases hok
    rw [rowCount_append, rowCount_singleton, h0']
    simp
  · rcases Nat.lt_or_ge (rowCount r T) 2 with h2 | h2
    · have h1' : rowCount r T = 1 := by omega
      rw [gocFull_of_one r T h1'] at hok
      cases hok
      omega
    · rw [gocFull_of_many r T h2] at hok
      cases hok

/-! ## Config readers (`BaseLoader._read_json_file`) -/

/-- Observable state of a configuration file: absent, unparseable, or
parsed content. -/
inductive FileState where
  | missing
  | invalid
  | valid (v : JVal)
  deriving DecidableEq, Repr

/-- The typed errors `_read_json_file` raises when `ignore_errors` is
off: `FileNotFoundError` and the `ValueError` wrapping
`json.JSONDecodeError`. -/
inductive ReadError where
  | fileNotFound
  | jsonDecodeError
  deriving DecidableEq, Repr

/-- Render a read error as the generic exception message seen by the
step wrappers. -/
def ReadError.msg : ReadError → String
  | .fileNotFound => "FileNotFoundError"
  | .jsonDecodeError => "ValueError"

/-- `BaseLoader._read_json_file` (installer.py 37-54): a missing file or
a decode failure yields the sentinel `False` (modelled `none`) when
`ignore_errors` is set, and raises the typed error otherwise; parsed
content is returned as is. -/
def readJsonFile (file : FileState) (ignore_errors : Bool) :
    Except ReadError (Option JVal) :=
  match file with
  | .missing => if ignore_errors then .ok none else .error .fileNotFound
  | .invalid => if ignore_errors then .ok none else .error .jsonDecodeError
  | .valid v => .ok (some v)

/-! ## App registrar (`AppInstaller.create_app`) -/

/-- One row of the `App` model (models.py).  The `permissions`
many-to-many relation is kept in a separate link table. -/
structure AppRec where
  name : String
  label : String
  verbose_name : String
  url : Option String
  icon : Option String
  is_active : Bool
  is_default : Bool
  is_service : Bool
  description : Option String
  deriving DecidableEq, Repr

/-- The seven keyword arguments `create_app` passes to
`App.objects.get_or_create` (installer.py 358-366) — all of them act as
lookup fields; no `defaults` are given. -/
structure AppLookup where
  name : String
  verbose_name : String
  label : String
  is_default : Bool
  is_service : Bool
  url : Option String
  icon : Option String
  deriving DecidableEq, Repr

/-- Whether an existing row matches all seven lookup fields. -/
def AppRec.matchesLookup (a : AppRec) (l : AppLookup) : Bool :=
  a.name = l.name && a.verbose_name = l.verbose_name && a.label = l.label &&
  a.is_default = l.is_default && a.is_service = l.is_service &&
  decide (a.url = l.url) && decide (a.icon = l.icon)

/-- The row `get_or_create` inserts when no row matches: the lookup
fields plus the model defaults `is_active=True`, `description=NULL`. -/
def AppLookup.toRow (l : AppLookup) : AppRec :=
  { name := l.name, label := l.label, verbose_name := l.verbose_name,
    url := l.url, icon := l.icon, is_active := true,
    is_default := l.is_default, is_service := l.is_service, description := none }

/-- `AppInstaller.create_app` on the App table (installer.py 348-369):
`get_or_create` with the seven kwargs as lookup.  When no row matches
but the unique `name` is already taken, the insert fails with an
integrity error; `create_app` catches and logs every exception itself,
so the step never raises.  The flag reports whether the step succeeded.
(`App.name` is unique, so under that invariant at most one row can match
the lookup.) -/
def createAppTable (l : AppLookup) (T : List AppRec) : List AppRec × Bool :=
  if T.any (fun a => a.matchesLookup l) then (T, true)
  else if T.any (fun a => a.name = l.name) then (T, false)
  else (T ++ [l.toRow], true)

/-! ## Settings loader (`Settings`) -/

/-- The five columns `Settings._load_settings` writes as `defaults`
(installer.py 127-133).  A Python `None` (absent key or JSON null) is
`jnull`. -/
structure SettingPayload where
  label : JVal
  value : JVal
  default : JVal
  type : JVal
  options : JVal
  deriving DecidableEq, Repr

/-- The `AppSetting` table, keyed by `(app, name)`; `name` is whatever
value the config carries. -/
abbrev SettingsTable := List ((String × JVal) × SettingPayload)

/-- Read one entry of `settings.json` the way the loop body does:
`setting["name"]` raises on a non-dict entry or a missing name; the
other fields use `dict.get` defaults (installer.py 123-133). -/
def parseSetting (v : JVal) : Except String (JVal × SettingPayload) :=
  match v.asObj with
  | none => .error "TypeError"
  | some fields =>
    match JVal.getKey fields "name" with
    | none => .error "KeyError"
    | some nameV =>
      .ok (nameV,
        { label := (JVal.getKey fields "label").getD .jnull,
          value := (JVal.getKey fields "value").getD .jnull,
          default := (JVal.getKey fields "default").getD .jnull,
          type := (JVal.getKey fields "type").getD (.jstr "string"),
          options := (JVal.getKey fields "options").getD .onil })

/-- The loop of `Settings._load_settings` (installer.py 120-134):
upsert each entry keyed by `(app, name)`; a raised exception stops the
loop, keeping the rows already written. -/
def settingsLoop (app : String) (entries : List JVal) (T : SettingsTable) :
    SettingsTable × Option String :=
  match entries with
  | [] => (T, none)
  | v :: rest =>
    match parseSetting v with
    | .error e => (T, some e)
    | .ok (nameV, payload) =>
      match Table.uoc (app, nameV) payload T with
      | .ok T' => settingsLoop app rest T'
      | .error e => (T, some e)

/-- `Settings.load` (installer.py 136-139): read `settings.json`
(`ignore_errors` is always true for this loader, installer.py 308), and
run the loop only on a truthy list. -/
def settingsLoad (app : String) (file : FileState) (T : SettingsTable) :
    SettingsTable × Option String :=
  match readJsonFile file true with
  | .error e => (T, some e.msg)
  | .ok none => (T, none)
  | .ok (some v) =>
    if v.truthy && (v.asList).isSome then
      settingsLoop app ((v.asList).getD []) T
    else (T, none)

/-! ## Options loader (`Options`) -/

/-- One row of an option model: the assigned column values. -/
abbrev OptRow := List (String × JVal)

/-- The table of one option model. -/
abbrev OptTable := List OptRow

/-- Column read on an option row. -/
def OptRow.getField (r : OptRow) (f : String) : Option JVal :=
  (r.find? (fun p => p.1 = f)).map (·.2)

/-- Column assignment on an option row. -/
def OptRow.setField (r : OptRow) (f : String) (v : JVal) : OptRow :=
  if r.any (fun p => p.1 = f) then r.map (fun p => if p.1 = f then (f, v) else p)
  else r ++ [(f, v)]

/-- Update the first row satisfying `p`. -/
def updateFirstMatch (p : OptRow → Bool) (f : OptRow → OptRow) : OptTable → OptTable
  | [] => []
  | r :: rs => if p r then f r :: rs else r :: updateFirstMatch p f rs

/-- Assign every `defaults` field on a row. -/
def applyDefaults (defaults : List (String × JVal)) (r : OptRow) : OptRow :=
  defaults.foldl (fun r kv => r.setField kv.1 kv.2) r

/-- `model.objects.update_or_create(**{lf: lv}, defaults=defaults)` on
an option table (installer.py 99): update the first (under unique keys,
the only) row whose `lf` column equals `lv`, or create a row from the
lookup plus the defaults; several matching rows raise. -/
def uocOption (lf : String) (lv : JVal) (defaults : List (String × JVal))
    (T : OptTable) : Except String OptTable :=
  match T.filter (fun r => r.getField lf == some lv) with
  | [] => .ok (T ++ [applyDefaults defaults [(lf, lv)]])
  | [_] => .ok (updateFirstMatch (fun r => r.getField lf == some lv)
      (applyDefaults defaults) T)
  | _ :: _ :: _ => .error "MultipleObjectsReturned"

/-- First usable lookup field: present in the filtered data with a
non-`None` value (installer.py 91-94). -/
def usableField (filtered : List (String × JVal)) (f : String) : Option (String × JVal) :=
  match JVal.getKey filtered f with
  | some v => if v = .jnull then none else some (f, v)
  | none => none

/-- `next(... for field in PREFERRED_LOOKUPS ...)`: prefer `"name"`,
then `"code"`. -/
def chooseLookup (filtered : List (String × JVal)) : Option (String × JVal) :=
  (usableField filtered "name").or (usableField filtered "code")

/-- The `filtered_data` dict of `_load_options` (installer.py 86-89):
the record restricted to the model's fields, with the slug derived from
the record's name when the model has a slug field. -/
def filteredDataOf (modelFields : List String) (record : List (String × JVal)) :
    List (String × JVal) :=
  let filtered₀ := record.filter (fun kv => modelFields.contains kv.1)
  if modelFields.contains "slug" then
    match JVal.getKey record "name" with
    | some nv => OptRow.setField filtered₀ "slug" (.jstr (derivedSlug nv))
    | none => filtered₀
  else filtered₀

/-- `Options._load_options` body for one record (installer.py 85-99):
keep the fields that exist on the model, derive the slug when the model
has a slug field and the record a name, pick the lookup field — skipping
the record entirely without one — and upsert. -/
def processOptionRecord (modelFields : List String) (record : List (String × JVal))
    (T : OptTable) : Except String OptTable :=
  let filtered := filteredDataOf modelFields record
  match chooseLookup filtered with
  | none => .ok T
  | some (lf, lv) => uocOption lf lv (filtered.filter (fun kv => kv.1 ≠ lf)) T

/-- The inner record loop of `_load_options`: a raised exception stops
the loop (it escapes to `Options.load`'s caller), keeping earlier
writes; `record.items()` on a non-dict record raises. -/
def optionRecordsLoop (modelFields : List String) (records : List JVal) (T : OptTable) :
    OptTable × Option String :=
  match records with
  | [] => (T, none)
  | rv :: rest =>
    match rv.asObj with
    | none => (T, some "AttributeError")
    | some record =>
      match processOptionRecord modelFields record T with
      | .ok T' => optionRecordsLoop modelFields rest T'
      | .error e => (T, some e)

/-- The option-model tables of the sub-application, keyed by model name. -/
abbrev OptTables := List (String × OptTable)

/-- The outer loop of `_load_options` over `options.items()`
(installer.py 75-99): resolve each model by name
(`app_config.get_model` raises `LookupError` on an unknown one) and run
the record loop on that model's table. -/
def optionsModelsLoop (models : List (String × List String))
    (entries : List (String × JVal)) (tabs : OptTables) : OptTables × Option String :=
  match entries with
  | [] => (tabs, none)
  | (modelName, recordsV) :: rest =>
    match models.find? (fun m => m.1 = modelName) with
    | none => (tabs, some "LookupError")
    | some mf =>
      match recordsV.asList with
      | none => (tabs, some "TypeError")
      | some records =>
        let T := (Table.atKey tabs modelName).getD []
        match optionRecordsLoop mf.2 records T with
        | (T', none) => optionsModelsLoop models rest (Table.uocPure modelName T' tabs)
        | (T', some e) => (Table.uocPure modelName T' tabs, some e)

/-- `Options.load` (installer.py 101-104): read `options.json`; only a
truthy dict is applied (`_validate_options` is `isinstance(options,
dict)`). -/
def optionsLoad (models : List (String × List String)) (file : FileState)
    (tabs : OptTables) : OptTables × Option String :=
  match readJsonFile file true with
  | .error e => (tabs, some e.msg)
  | .ok none => (tabs, none)
  | .ok (some v) =>
    if v.truthy then
      match v.asObj with
      | some entries => optionsModelsLoop models entries tabs
      | none => (tabs, none)
    else (tabs, none)

/-! ## Permissions loader (`Permissions`) -/

/-- A `django.contrib.auth` Permission row as this code creates it:
codename, display name and the content type resolved for the
sub-application (`app_label`, `model=verbose_name`). -/
structure PermRec where
  codename : JVal
  name : JVal
  content_type : String × String
  deriving DecidableEq, Repr

/-- The Permission table. -/
abbrev PermTable := List PermRec

/-- The `App.permissions` many-to-many links, keyed by app name. -/
abbrev AppPermLinks := List (String × PermRec)

/-- The (content_type, codename) pair, unique for permissions. -/
def permUniqueKey (p : PermRec) : (String × String) × JVal := (p.content_type, p.codename)

/-- `Permission.objects.get_or_create(codename=…, name=…,
content_type=…)` under the `(content_type, codename)` uniqueness
constraint: reuse an exactly matching row; with none, create — which
fails with an integrity error when the unique key is already taken by a
row with a different name. -/
def gocPermission (p : PermRec) (T : PermTable) : Except String PermTable :=
  match T.filter (fun q => decide (q = p)) with
  | [] =>
    if T.any (fun q => permUniqueKey q = permUniqueKey p) then .error "IntegrityError"
    else .ok (T ++ [p])
  | _ :: _ => .ok T

/-- `app.permissions.add(permission)`: a set-semantics link insert. -/
def addPermLink (app : String) (p : PermRec) (L : AppPermLinks) : AppPermLinks :=
  if L.any (fun l => decide (l = (app, p))) then L else L ++ [(app, p)]

/-- `_validate_permissions` (installer.py 155-158): a list of dicts
each containing `codename` and `name`. -/
def validatePermissions (v : JVal) : Bool :=
  match v.asList with
  | none => false
  | some entries => entries.all (fun e =>
      match e.asObj with
      | none => false
      | some fields =>
        (JVal.getKey fields "codename").isSome && (JVal.getKey fields "name").isSome)

/-- `App.objects.get(name=…)`: exactly one row or an exception. -/
def getAppByName (T : List AppRec) (n : String) : Except String AppRec :=
  match T.filter (fun a => a.name = n) with
  | [a] => .ok a
  | [] => .error "DoesNotExist"
  | _ :: _ :: _ => .error "MultipleObjectsReturned"

/-- The loop of `_load_permissions` (installer.py 171-177): get or
create each permission and attach it to the app; a raised exception
stops the loop, keeping earlier work. -/
def permissionsLoop (app : String) (ct : String × String) (entries : List JVal)
    (perms : PermTable) (links : AppPermLinks) :
    PermTable × AppPermLinks × Option String :=
  match entries with
  | [] => (perms, links, none)
  | v :: rest =>
    match v.asObj with
    | none => (perms, links, some "TypeError")
    | some fields =>
      match JVal.getKey fields "codename", JVal.getKey fields "name" with
      | some c, some n =>
        let p : PermRec := ⟨c, n, ct⟩
        match gocPermission p perms with
        | .ok perms' => permissionsLoop app ct rest perms' (addPermLink app p links)
        | .error e => (perms, links, some e)
      | _, _ => (perms, links, some "KeyError")

/-- `Permissions.load` (installer.py 179-182) with `_load_permissions`
(164-177): on a truthy validated list, get-or-create the content type,
fetch the App row by name, then run the loop. -/
def permissionsLoad (appName label verbose : String) (file : FileState)
    (apps : List AppRec) (cts : List (String × String)) (perms : PermTable)
    (links : AppPermLinks) :
    List (String × String) × PermTable × AppPermLinks × Option String :=
  match readJsonFile file true with
  | .error e => (cts, perms, links, some e.msg)
  | .ok none => (cts, perms, links, none)
  | .ok (some v) =>
    if v.truthy && validatePermissions v then
      match gocFull (label, verbose) cts with
      | .error e => (cts, perms, links, some e)
      | .ok cts' =>
        match getAppByName apps appName with
        | .error e => (cts', perms, links, some e)
        | .ok _ =>
          match permissionsLoop appName (label, verbose) ((v.asList).getD []) perms links with
          | (perms', links', err) => (cts', perms', links', err)
    else (cts, perms, links, none)

/-! ## Fixture loader (`Fixtures`) -/

/-- A fixture file: unparseable JSON, or the parsed list of records. -/
inductive FixtureFile where
  | invalid
  | valid (data : List JVal)
  deriving DecidableEq, Repr

/-- Fixture-model tables, keyed by the `"app_label.model_name"` string. -/
abbrev FixTables := List (String × List JVal)

/-- `data[0]["model"]`, defined only when the record is a dict whose
`model` value is a string (anything else raises inside the swallowed
`try`). -/
def fixRecordModel (v : JVal) : Option String :=
  match v.asObj with
  | none => none
  | some fields =>
    match JVal.getKey fields "model" with
    | some (.jstr m) => some m
    | _ => none

/-- Worker for `splitDot`. -/
def splitDotGo (cur : List Char) : List Char → List String
  | [] => [⟨cur.reverse⟩]
  | c :: cs => if c = '.' then ⟨cur.reverse⟩ :: splitDotGo [] cs else splitDotGo (c :: cur) cs

/-- Python `s.split(".")`. -/
def splitDot (s : String) : List String :=
  splitDotGo [] s.data

/-- Whether a fixture record names a registered model
(`apps.get_model(app_label, model_name)` succeeds). -/
def fixRecordOk (known : List String) (r : JVal) : Bool :=
  match fixRecordModel r with
  | some m => decide ((splitDot m).length = 2) && known.contains m
  | none => false

/-- `call_command("loaddata", …)`: load every record of the file into
its model's table, or fail (rolled back) when some record is not
loadable.  Records are appended; the loaders only ever load into the
checked model's table when it is empty. -/
def loaddata (known : List String) (tabs : FixTables) (data : List JVal) :
    Option FixTables :=
  if data.all (fixRecordOk known) then
    some (data.foldl (fun ts r =>
      match fixRecordModel r with
      | some m => Table.uocPure m ((Table.atKey ts m).getD [] ++ [r]) ts
      | none => ts) tabs)
  else none

/-- `Fixtures._load_fixture` (installer.py 191-202): parse the file,
read the first record's model reference, and `loaddata` only when that
model's table is empty; with `ignore_errors=True` every exception is
swallowed, leaving the tables unchanged. -/
def loadFixtureFile (known : List String) (tabs : FixTables) (file : FixtureFile) :
    FixTables :=
  match file with
  | .invalid => tabs
  | .valid data =>
    match data with
    | [] => tabs
    | first :: _ =>
      match fixRecordModel first with
      | none => tabs
      | some m =>
        match splitDot m with
        | [_, _] =>
          if known.contains m then
            if ((Table.atKey tabs m).getD []).isEmpty then
              match loaddata known tabs data with
              | some tabs' => tabs'
              | none => tabs
            else tabs
          else tabs
        | _ => tabs

/-- `Fixtures.load` (installer.py 204-210): nothing without a fixtures
directory, else apply each `*.json` file in order. -/
def fixturesLoad (known : List String) (dir : Option (List FixtureFile))
    (tabs : FixTables) : FixTables :=
  match dir with
  | none => tabs
  | some files => files.foldl (loadFixtureFile known) tabs

/-! ## Periodic-task loader (`PeriodicTasks`) -/

/-- A `CrontabSchedule` row.  `celery.schedules.crontab(*parts)` binds
the five positional arguments in celery's parameter order — (minute,
hour, day_of_week, day_of_month, month_of_year) — and the loader then
reads those five attributes back (installer.py 226, 247-253).  Field
values are kept as the raw field strings; celery's per-field
normalisation is external to this code. -/
structure CronKey where
  minute : String
  hour : String
  day_of_week : String
  day_of_month : String
  month_of_year : String
  deriving DecidableEq, Repr

/-- `celery.schedules.crontab(*parts)` on five positional arguments. -/
def crontabOf (p0 p1 p2 p3 p4 : String) : CronKey :=
  { minute := p0, hour := p1, day_of_week := p2, day_of_month := p3, month_of_year := p4 }

/-- `PeriodicTasks.validate_schedule_format` (installer.py 219-226):
split the schedule; anything but five fields raises; five fields build
the celery crontab. -/
def validate_schedule_format (schedule : String) : Except String CronKey :=
  match pySplit schedule with
  | [p0, p1, p2, p3, p4] => .ok (crontabOf p0 p1 p2 p3 p4)
  | _ => .error ("Invalid schedule format: " ++ schedule)

/-- An `IntervalSchedule` row; the loader always creates
`period=SECONDS` ones. -/
structure IntervalKey where
  every : Nat
  period : String
  deriving DecidableEq, Repr

/-- Python `int(...)` on a digit string. -/
def digitsToNat (s : String) : Nat :=
  s.data.foldl (fun acc c => 10 * acc + (c.toNat - 48)) 0

/-- The columns of a `PeriodicTask` row this loader manages: the task
identifier and the two mutually exclusive schedule references. -/
structure PTPayload where
  task : JVal
  crontab : Option CronKey
  interval : Option IntervalKey
  deriving DecidableEq, Repr

/-- The `PeriodicTask` table, keyed by the unique task name. -/
abbrev PTTable := List (String × PTPayload)

/-- The three schedule-related tables the task loader touches. -/
structure TasksState where
  crontabs : List CronKey
  intervals : List IntervalKey
  periodicTasks : PTTable
  deriving DecidableEq, Repr

/-- One iteration of the `PeriodicTasks.load` loop (installer.py
237-272): read the task and schedule out of the details dict, classify
the schedule string by its whitespace-separated fields — five fields:
crontab; one all-digits field: interval in seconds; anything else
raises —, get-or-create the schedule row, and upsert the task by name
with the other schedule reference cleared to `None`. -/
def processTask (S : TasksState) (name : String) (details : JVal) :
    Except String TasksState :=
  match details.asObj with
  | none => .error "AttributeError"
  | some fields =>
    let scheduleStr := ((JVal.getKey fields "schedule").getD (.jstr "")).pyStr
    match JVal.getKey fields "task" with
    | none => .error "KeyError"
    | some taskV =>
      match pySplit scheduleStr with
      | [_, _, _, _, _] =>
        match validate_schedule_format scheduleStr with
        | .error e => .error e
        | .ok c =>
          match gocFull c S.crontabs with
          | .error e => .error e
          | .ok crons' =>
            match Table.uoc name ⟨taskV, some c, none⟩ S.periodicTasks with
            | .ok pts' => .ok { S with crontabs := crons', periodicTasks := pts' }
            | .error e => .error e
      | [p0] =>
        if pyIsdigit p0 then
          let i : IntervalKey := ⟨digitsToNat p0, "seconds"⟩
          match gocFull i S.intervals with
          | .error e => .error e
          | .ok ivals' =>
            match Table.uoc name ⟨taskV, none, some i⟩ S.periodicTasks with
            | .ok pts' => .ok { S with intervals := ivals', periodicTasks := pts' }
            | .error e => .error e
        else .error ("Unknown schedule format: " ++ scheduleStr)
      | _ => .error ("Unknown schedule format: " ++ scheduleStr)

/-- The `PeriodicTasks.load` loop with its per-task `try`/`except`
(installer.py 237-276, `ignore_errors=True`): a failing task is printed
and skipped, and the loop continues. -/
def tasksLoop (entries : List (String × JVal)) (S : TasksState) : TasksState :=
  match entries with
  | [] => S
  | (name, details) :: rest =>
    match processTask S name details with
    | .ok S' => tasksLoop rest S'
    | .error _ => tasksLoop rest S

/-- Observable state of `celery/tasks.yml`: absent, not valid YAML, or
a parsed document. -/
inductive TasksFile where
  | missing
  | invalid
  | parsed (v : JVal)
  deriving DecidableEq, Repr

/-- `PeriodicTasks.load` (installer.py 228-276): an absent file returns
`{}`; a falsy document is replaced by `{}` (`or {}`); `.items()` on a
non-dict document raises out of the loader. -/
def tasksLoad (file : TasksFile) (S : TasksState) : TasksState × Option String :=
  match file with
  | .missing => (S, none)
  | .invalid => (S, some "YAMLError")
  | .parsed v =>
    match (if v.truthy then v else .onil).asObj with
    | none => (S, some "AttributeError")
    | some entries => (tasksLoop entries S, none)

/-! ## The installer orchestrator (`AppInstaller`, `AppsConfig`) -/

/-- Modelled from the spec: `django.templatetags.static.static` (not in
src/) — resolve a static-asset path to its URL. -/
def staticUrl (p : String) : String := "/static/" ++ p

/-- Modelled from the spec: `scholarmis.framework.urls.get_valid_url`
(not in src/) — "a URL validated against a known-safe format": keep a
site-relative or http(s) URL, reject anything else as `None`. -/
def get_valid_url (u : String) : Option String :=
  if ("/".data.isPrefixOf u.data || "http://".data.isPrefixOf u.data ||
      "https://".data.isPrefixOf u.data) then some u else none

/-- `AppInstaller._get_icon_url` (installer.py 314-325):
`static(os.path.join(label, icon))`, falling back to the default icon. -/
def iconUrl (label : String) (icon : Option String) : String :=
  match icon with
  | some i => staticUrl (label ++ "/" ++ i)
  | none => staticUrl "img/app.png"

/-- `AppInstaller._get_valid_url` (installer.py 327-337). -/
def urlOf (url : Option String) : Option String :=
  match url with
  | some u => get_valid_url u
  | none => none

/-- Everything the installer reads from the `AppConfig` object and the
sub-application's install directory: identity attributes, the model
registry, and the configuration files. -/
structure InstallConfig where
  app_name : String
  app_label : String
  verbose_name : String
  is_default : Bool
  is_service : Bool
  icon : Option String
  url : Option String
  models : List (String × List String)
  knownModels : List String
  optionsFile : FileState
  settingsFile : FileState
  permissionsFile : FileState
  fixturesDir : Option (List FixtureFile)
  tasksFile : TasksFile
  deriving DecidableEq, Repr

/-- The App lookup `create_app` builds from the config (installer.py
296-305, 358-366). -/
def appLookupOf (cfg : InstallConfig) : AppLookup :=
  { name := cfg.app_name, verbose_name := cfg.verbose_name, label := cfg.app_label,
    is_default := cfg.is_default, is_service := cfg.is_service,
    url := urlOf cfg.url, icon := some (iconUrl cfg.app_label cfg.icon) }

/-- The six installation steps, in the order `AppInstaller.install`
runs them. -/
inductive StepName where
  | createApp
  | options
  | permissions
  | fixtures
  | settings
  | tasks
  deriving DecidableEq, Repr

/-- One entry of the orchestrator's error log: which step ran and
whether it completed without a logged error. -/
structure Event where
  step : StepName
  ok : Bool
  deriving DecidableEq, Repr

/-- The database state the installer touches, plus the log of step
outcomes (`log_error` calls leave the data unchanged). -/
structure DB where
  apps : List AppRec
  contentTypes : List (String × String)
  perms : PermTable
  appPerms : AppPermLinks
  appSettings : SettingsTable
  optTables : OptTables
  fixTables : FixTables
  tasksState : TasksState
  log : List Event
  deriving DecidableEq, Repr

/-- Append a step outcome to the log. -/
def logStep (db : DB) (st : StepName) (ok : Bool) : DB :=
  { db with log := db.log ++ [⟨st, ok⟩] }

/-- `AppInstaller.create_app` (installer.py 348-369), which catches
and logs its own exceptions. -/
def stepCreateApp (cfg : InstallConfig) (db : DB) : DB :=
  let r := createAppTable (appLookupOf cfg) db.apps
  logStep { db with apps := r.1 } .createApp r.2

/-- `AppInstaller.load_options` (installer.py 380-387): run the loader,
catching and logging any exception. -/
def stepOptions (cfg : InstallConfig) (db : DB) : DB :=
  let r := optionsLoad cfg.models cfg.optionsFile db.optTables
  logStep { db with optTables := r.1 } .options r.2.isNone

/-- `AppInstaller.load_permissions` (installer.py 371-378). -/
def stepPermissions (cfg : InstallConfig) (db : DB) : DB :=
  let r := permissionsLoad cfg.app_name cfg.app_label cfg.verbose_name
    cfg.permissionsFile db.apps db.contentTypes db.perms db.appPerms
  logStep { db with contentTypes := r.1, perms := r.2.1, appPerms := r.2.2.1 }
    .permissions r.2.2.2.isNone

/-- `AppInstaller.load_fixtures` (installer.py 398-402); the fixture
loader itself swallows every per-file error. -/
def stepFixtures (cfg : InstallConfig) (db : DB) : DB :=
  logStep { db with fixTables := fixturesLoad cfg.knownModels cfg.fixturesDir db.fixTables }
    .fixtures true

/-- `AppInstaller.load_settings` (installer.py 389-396). -/
def stepSettings (cfg : InstallConfig) (db : DB) : DB :=
  let r := settingsLoad cfg.app_name cfg.settingsFile db.appSettings
  logStep { db with appSettings := r.1 } .settings r.2.isNone

/-- `AppInstaller.load_tasks` (installer.py 404-408). -/
def stepTasks (cfg : InstallConfig) (db : DB) : DB :=
  let r := tasksLoad cfg.tasksFile db.tasksState
  logStep { db with tasksState := r.1 } .tasks r.2.isNone

/-- `AppInstaller.install` (installer.py 410-422): create the app, then
load options, permissions, fixtures, settings and periodic tasks, in
that order; each step catches and logs its own failures. -/
def install (cfg : InstallConfig) (db : DB) : DB :=
  stepTasks cfg (stepSettings cfg (stepFixtures cfg (stepPermissions cfg
    (stepOptions cfg (stepCreateApp cfg db)))))

/-- `AppsConfig.install`, the receiver `ready()` connects to the
`post_migrate` signal (apps.py 12-24): it builds an `AppInstaller` and
calls only `load_tasks`. -/
def postMigrateInstall (cfg : InstallConfig) (db : DB) : DB :=
  stepTasks cfg db

/-! ## The cleanup task (`tasks.cleanup_exports_folder`) -/

/-- Modelled from the spec: the storage backend
(`scholarmis.framework.files.storage.TenantStorage`, not in src/) as the
cleanup task observes it — an exports folder that may be absent, its
files with modification times, and the set of paths whose deletion
fails.  Time is in seconds. -/
structure Storage where
  exportsExists : Bool
  files : List (String × Int)
  failingDeletes : List String
  now : Int
  deriving DecidableEq, Repr

/-- The path of a listed file (`f"{folder_path}/{filename}"`). -/
def exportPath (filename : String) : String := "exports/" ++ filename

/-- The file loop of `cleanup_exports_folder` (tasks.py 25-37): for
each listed file in order, read its modification time, and when it is
strictly older than the cutoff try to delete it — a failed deletion is
logged and the loop continues.  Returns the surviving files, the logged
failures, and the count of deleted files. -/
def cleanupLoop (failing : List String) (cutoff : Int) :
    List (String × Int) → List (String × Int) × List String × Nat
  | [] => ([], [], 0)
  | f :: fs =>
    if f.2 < cutoff then
      if failing.contains (exportPath f.1) then
        let r := cleanupLoop failing cutoff fs
        (f :: r.1, ("Failed to delete " ++ exportPath f.1) :: r.2.1, r.2.2)
      else
        let r := cleanupLoop failing cutoff fs
        (r.1, r.2.1, r.2.2 + 1)
    else
      let r := cleanupLoop failing cutoff fs
      (f :: r.1, r.2.1, r.2.2)

/-- `tasks.cleanup_exports_folder` (tasks.py 7-39): report an absent
folder; otherwise run the deletion loop with the cutoff 24 hours before
now and return the status string.  The result is the storage left
behind, the logged per-file failures, and the returned string. -/
def cleanupExportsFolder (st : Storage) : Storage × List String × String :=
  if !st.exportsExists then
    (st, [], "Directory 'exports' not found in storage.")
  else
    let r := cleanupLoop st.failingDeletes (st.now - 24 * 3600) st.files
    ({ st with files := r.1 }, r.2.1,
     "Cleanup complete. Deleted " ++ toString r.2.2 ++ " files.")

/-! ## Claim C9: the config reader's error behaviour -/

/-- C9: for the config readers, a missing file yields the sentinel
"absent" value (`False`, modelled `none`) when errors are ignored and a
typed file-not-found error otherwise; undecodable content yields the
sentinel when errors are ignored and a typed decode error otherwise;
parsed content is returned as is. -/
theorem read_json_file_spec (file : FileState) (ignore_errors : Bool) :
    (file = .missing →
      readJsonFile file ignore_errors =
        if ignore_errors then .ok none else .error .fileNotFound) ∧
    (file = .invalid →
      readJsonFile file ignore_errors =
        if ignore_errors then .ok none else .error .jsonDecodeError) ∧
    (∀ v, file = .valid v → readJsonFile file ignore_errors = .ok (some v)) := by
  refine ⟨?_, ?_, ?_⟩
  · intro h; subst h; rfl
  · intro h; subst h; rfl
  · intro v h; subst h; rfl

/-- Witness for C9 at the four error-relevant inputs. -/
theorem read_json_file_spec_witness :
    readJsonFile .missing false = .error .fileNotFound ∧
    readJsonFile .invalid false = .error .jsonDecodeError ∧
    readJsonFile .missing true = .ok none ∧
    readJsonFile .invalid true = .ok none :=
  ⟨(read_json_file_spec .missing false).1 rfl,
   (read_json_file_spec .invalid false).2.1 rfl,
   (read_json_file_spec .missing true).1 rfl,
   (read_json_file_spec .invalid true).2.1 rfl⟩

/-! ## Claim C10: the derived slug -/

theorem setField_eq_uocPure (r : OptRow) (f : String) (v : JVal) :
    OptRow.setField r f v = Table.uocPure f v r := rfl

theorem getField_eq_atKey (r : OptRow) (f : String) :
    OptRow.getField r f = Table.atKey r f := rfl

theorem replaceDash_no_dash (s : String) : ¬ '-' ∈ (replaceDash s).data := by
  intro hmem
  rw [replaceDash] at hmem
  simp only [String.data] at hmem
  obtain ⟨a, _, ha⟩ := List.mem_map.mp hmem
  by_cases h : a = '-'
  · rw [if_pos h] at ha
    exact absurd ha (by decide)
  · rw [if_neg h] at ha
    exact h ha

/-- C10: for an options record with a `"name"` value whose target model
has a slug field, the `filtered_data["slug"]` value passed to the upsert
is the slugification of the name with every hyphen replaced by an
underscore, and a derived slug never contains a hyphen. -/
theorem options_slug_derivation (modelFields : List String)
    (record : List (String × JVal)) (nv : JVal)
    (hslug : modelFields.contains "slug" = true)
    (hname : JVal.getKey record "name" = some nv) :
    OptRow.getField (filteredDataOf modelFields record) "slug" =
      some (.jstr (derivedSlug nv)) ∧
    ∀ v : JVal, ¬ '-' ∈ (derivedSlug v).data := by
  constructor
  · rw [filteredDataOf]
    simp only [hslug, hname, if_true]
    rw [setField_eq_uocPure, getField_eq_atKey, Table.atKey_uocPure]
    simp
  · intro v
    exact replaceDash_no_dash _

/-- Witness for C10: `"Linear Algebra"` slugifies to `linear_algebra`
and `"Math"` to `math`. -/
theorem options_slug_derivation_witness :
    OptRow.getField (filteredDataOf ["name", "slug"]
        [("name", .jstr "Linear Algebra")]) "slug" = some (.jstr "linear_algebra") ∧
    OptRow.getField (filteredDataOf ["name", "slug"]
        [("name", .jstr "Math")]) "slug" = some (.jstr "math") := by
  constructor
  · rw [(options_slug_derivation ["name", "slug"] [("name", .jstr "Linear Algebra")]
      (.jstr "Linear Algebra") (by decide) (by decide)).1]
    decide
  · rw [(options_slug_derivation ["name", "slug"] [("name", .jstr "Math")]
      (.jstr "Math") (by decide) (by decide)).1]
    decide

/-! ## Claim C8: unkeyed options records are skipped -/

/-- Whether the record loop does anything with a record: a non-dict
record aborts the loop, and a dict record is applied only when a usable
lookup field exists. -/
def recordUsable (modelFields : List String) (rv : JVal) : Bool :=
  match rv.asObj with
  | none => true
  | some record => (chooseLookup (filteredDataOf modelFields record)).isSome

/-- C8: a record with neither a usable `"name"` nor a usable `"code"`
is skipped — no row is touched and no exception raised — and the rest
of the records are processed exactly as if the skipped ones were not
there. -/
theorem options_skips_unkeyed_records (modelFields : List String)
    (records : List JVal) (T : OptTable) :
    optionRecordsLoop modelFields records T =
      optionRecordsLoop modelFields (records.filter (recordUsable modelFields)) T := by
  induction records generalizing T with
  | nil => rfl
  | cons rv rest ih =>
    cases hobj : rv.asObj with
    | none =>
      have hu : recordUsable modelFields rv = true := by rw [recordUsable, hobj]
      rw [List.filter_cons, if_pos hu, optionRecordsLoop, optionRecordsLoop, hobj]
    | some record =>
      by_cases husable : (chooseLookup (filteredDataOf modelFields record)).isSome
      · have hu : recordUsable modelFields rv = true := by rw [recordUsable, hobj]; exact husable
        rw [List.filter_cons, if_pos hu, optionRecordsLoop, optionRecordsLoop, hobj]
        cases hres : processOptionRecord modelFields record T with
        | ok T' => simp only [hres, ih]
        | error e => simp only [hres]
      · have hu : recordUsable modelFields rv = false := by
          rw [recordUsable, hobj]
          exact Bool.not_eq_true _ ▸ husable
        have hskip : processOptionRecord modelFields record T = .ok T := by
          rw [processOptionRecord]
          rcases hcl : chooseLookup (filteredDataOf modelFields record) with _ | lk
          · rfl
          · rw [hcl] at husable
            simp at husable
        rw [List.filter_cons, if_neg (by simp [hu])]
        simp only [optionRecordsLoop, hobj, hskip]
        exact ih T

/-! ## Claims C2 and C3: periodic-task schedule resolution -/

theorem filter_key_ne_nil {κ δ : Type} [DecidableEq κ] (T : List (κ × δ)) (k : κ)
    (h : Table.hasKey T k) : T.filter (fun r => decide (r.1 = k)) ≠ [] := by
  intro hf
  obtain ⟨r, hr, hrk⟩ : ∃ r ∈ T, (fun (r : κ × δ) => decide (r.1 = k)) r = true := by
    rw [← List.any_eq_true]
    exact h
  have : r ∈ T.filter (fun r => decide (r.1 = k)) := List.mem_filter.mpr ⟨hr, hrk⟩
  rw [hf] at this
  simp at this

theorem atKey_uoc_ok {κ δ : Type} [DecidableEq κ] (k : κ) (d : δ)
    (T T' : List (κ × δ)) (h : Table.uoc k d T = .ok T') :
    Table.atKey T' k = some d := by
  rw [Table.uoc] at h
  cases hf : T.filter (fun r => decide (r.1 = k)) with
  | nil =>
    rw [hf] at h
    cases h
    have hnk : ¬ Table.hasKey T k := fun hh => filter_key_ne_nil T k hh hf
    have hmem : ¬ k ∈ Table.keys T := fun hm => hnk ((Table.hasKey_iff T k).mpr hm)
    rw [Table.atKey_append_right T _ k hmem, Table.atKey_cons]
    simp
  | cons x xs =>
    cases xs with
    | nil =>
      rw [hf] at h
      cases h
      have hx : x ∈ T.filter (fun r => decide (r.1 = k)) := by rw [hf]; simp
      obtain ⟨hxT, hxk⟩ := List.mem_filter.mp hx
      have hhk : Table.hasKey T k := by
        rw [Table.hasKey, List.any_eq_true]
        exact ⟨x, hxT, hxk⟩
      rw [Table.atKey_setKey]
      simp [hhk]
    | cons y ys =>
      rw [hf] at h
      cases h

/-- C2: a periodic-task schedule string is classified by splitting on
whitespace — exactly five fields resolve to a crontab schedule, one
all-digits field resolves to a seconds interval, and any other shape
raises a schedule-format error, so the task is not upserted from it. -/
theorem schedule_classification (S : TasksState) (name : String) (details : JVal)
    (fields : List (String × JVal)) (taskV : JVal)
    (hobj : details.asObj = some fields)
    (htask : JVal.getKey fields "task" = some taskV)
    (hnd : (Table.keys S.periodicTasks).Nodup) :
    (∀ p0 p1 p2 p3 p4,
      pySplit ((JVal.getKey fields "schedule").getD (.jstr "")).pyStr = [p0, p1, p2, p3, p4] →
      rowCount (crontabOf p0 p1 p2 p3 p4) S.crontabs ≤ 1 →
      ∃ S', processTask S name details = .ok S' ∧
        Table.atKey S'.periodicTasks name =
          some ⟨taskV, some (crontabOf p0 p1 p2 p3 p4), none⟩) ∧
    (∀ p0,
      pySplit ((JVal.getKey fields "schedule").getD (.jstr "")).pyStr = [p0] →
      pyIsdigit p0 = true →
      rowCount (⟨digitsToNat p0, "seconds"⟩ : IntervalKey) S.intervals ≤ 1 →
      ∃ S', processTask S name details = .ok S' ∧
        Table.atKey S'.periodicTasks name =
          some ⟨taskV, none, some ⟨digitsToNat p0, "seconds"⟩⟩) ∧
    ((pySplit ((JVal.getKey fields "schedule").getD (.jstr "")).pyStr).length ≠ 5 →
      (∀ p0, pySplit ((JVal.getKey fields "schedule").getD (.jstr "")).pyStr = [p0] →
        pyIsdigit p0 = false) →
      (∃ e, processTask S name details = .error e) ∧
      ∀ rest, tasksLoop ((name, details) :: rest) S = tasksLoop rest S) := by
  refine ⟨?_, ?_, ?_⟩
  · intro p0 p1 p2 p3 p4 hsplit hcount
    have hgoc : ∃ crons', gocFull (crontabOf p0 p1 p2 p3 p4) S.crontabs = .ok crons' := by
      rcases Nat.lt_or_ge (rowCount (crontabOf p0 p1 p2 p3 p4) S.crontabs) 1 with h0 | h1
      · exact ⟨_, gocFull_of_zero _ _ (Nat.lt_one_iff.mp h0)⟩
      · exact ⟨_, gocFull_of_one _ _ (Nat.le_antisymm hcount h1)⟩
    obtain ⟨crons', hcrons⟩ := hgoc
    refine ⟨⟨crons', S.intervals, Table.uocPure name
      ⟨taskV, some (crontabOf p0 p1 p2 p3 p4), none⟩ S.periodicTasks⟩, ?_, ?_⟩
    · simp only [processTask, hobj, htask, hsplit, validate_schedule_format, hcrons,
        Table.uoc_of_nodup name
          (⟨taskV, some (crontabOf p0 p1 p2 p3 p4), none⟩ : PTPayload)
          S.periodicTasks hnd]
    · rw [Table.atKey_uocPure]
      simp
  · intro p0 hsplit hdig hcount
    have hgoc : ∃ ivals', gocFull (⟨digitsToNat p0, "seconds"⟩ : IntervalKey) S.intervals
        = .ok ivals' := by
      rcases Nat.lt_or_ge (rowCount (⟨digitsToNat p0, "seconds"⟩ : IntervalKey) S.intervals) 1
        with h0 | h1
      · exact ⟨_, gocFull_of_zero _ _ (Nat.lt_one_iff.mp h0)⟩
      · exact ⟨_, gocFull_of_one _ _ (Nat.le_antisymm hcount h1)⟩
    obtain ⟨ivals', hivals⟩ := hgoc
    refine ⟨⟨S.crontabs, ivals', Table.uocPure name
      ⟨taskV, none, some ⟨digitsToNat p0, "seconds"⟩⟩ S.periodicTasks⟩, ?_, ?_⟩
    · simp only [processTask, hobj, htask, hsplit, hdig, if_true, hivals,
        Table.uoc_of_nodup name
          (⟨taskV, none, some ⟨digitsToNat p0, "seconds"⟩⟩ : PTPayload)
          S.periodicTasks hnd]
    · rw [Table.atKey_uocPure]
      simp
  · intro hlen hnotdig
    have herr : ∃ e, processTask S name details = .error e := by
      refine ⟨"Unknown schedule format: " ++
        ((JVal.getKey fields "schedule").getD (.jstr "")).pyStr, ?_⟩
      cases hp : pySplit ((JVal.getKey fields "schedule").getD (.jstr "")).pyStr with
      | nil => simp only [processTask, hobj, htask, hp]
      | cons p0 tl =>
        cases tl with
        | nil =>
          have hd := hnotdig p0 hp
          simp only [processTask, hobj, htask, hp, hd]
          simp
        | cons p1 tl2 =>
          cases tl2 with
          | nil => simp only [processTask, hobj, htask, hp]
          | cons p2 tl3 =>
            cases tl3 with
            | nil => simp only [processTask, hobj, htask, hp]
            | cons p3 tl4 =>
              cases tl4 with
              | nil => simp only [processTask, hobj, htask, hp]
              | cons p4 tl5 =>
                cases tl5 with
                | nil =>
                  rw [hp] at hlen
                  simp at hlen
                | cons p5 tl6 => simp only [processTask, hobj, htask, hp]
    obtain ⟨e, he⟩ := herr
    refine ⟨⟨e, he⟩, ?_⟩
    intro rest
    simp only [tasksLoop, he]

/-- Witness for C2: a five-field string resolves to a crontab, `"3600"`
to a seconds interval, and `"often"` is rejected without touching the
task table. -/
theorem schedule_classification_witness :
    (∃ S', processTask ⟨[], [], []⟩ "t" (.obj [("task", .jstr "app.tasks.run"),
        ("schedule", .jstr "0 4 * * 0")]) = .ok S' ∧
      Table.atKey S'.periodicTasks "t" =
        some ⟨.jstr "app.tasks.run", some (crontabOf "0" "4" "*" "*" "0"), none⟩) ∧
    (∃ S', processTask ⟨[], [], []⟩ "t" (.obj [("task", .jstr "app.tasks.run"),
        ("schedule", .jstr "3600")]) = .ok S' ∧
      Table.atKey S'.periodicTasks "t" =
        some ⟨.jstr "app.tasks.run", none, some ⟨3600, "seconds"⟩⟩) ∧
    (∃ e, processTask ⟨[], [], []⟩ "t" (.obj [("task", .jstr "app.tasks.run"),
        ("schedule", .jstr "often")]) = .error e) := by
  refine ⟨?_, ?_, ?_⟩
  · exact (schedule_classification ⟨[], [], []⟩ "t"
      (.obj [("task", .jstr "app.tasks.run"), ("schedule", .jstr "0 4 * * 0")])
      [("task", .jstr "app.tasks.run"), ("schedule", .jstr "0 4 * * 0")]
      (.jstr "app.tasks.run") (by decide) (by decide) (by decide)).1
      "0" "4" "*" "*" "0" (by decide) (by decide)
  · exact (schedule_classification ⟨[], [], []⟩ "t"
      (.obj [("task", .jstr "app.tasks.run"), ("schedule", .jstr "3600")])
      [("task", .jstr "app.tasks.run"), ("schedule", .jstr "3600")]
      (.jstr "app.tasks.run") (by decide) (by decide) (by decide)).2.1
      "3600" (by decide) (by decide) (by decide)
  · refine ((schedule_classification ⟨[], [], []⟩ "t"
      (.obj [("task", .jstr "app.tasks.run"), ("schedule", .jstr "often")])
      [("task", .jstr "app.tasks.run"), ("schedule", .jstr "often")]
      (.jstr "app.tasks.run") (by decide) (by decide) (by decide)).2.2
      (by decide) ?_).1
    intro p0 hp
    have hp' : ("often" :: ([] : List String)) = [p0] := hp
    injection hp' with h1 _
    rw [← h1]
    decide

/-- C3: whenever the task loader successfully reconciles a task, the
resulting row holds exactly one schedule reference — resolving a
crontab clears the interval to NULL and resolving an interval clears
the crontab to NULL. -/
theorem schedule_refs_exclusive (S : TasksState) (name : String) (details : JVal)
    (S' : TasksState) (h : processTask S name details = .ok S') :
    ∃ p : PTPayload, Table.atKey S'.periodicTasks name = some p ∧
      ((p.crontab.isSome ∧ p.interval = none) ∨
       (p.crontab = none ∧ p.interval.isSome)) := by
  cases hobj : details.asObj with
  | none =>
    simp only [processTask, hobj] at h
    exact Except.noConfusion h
  | some fields =>
    simp only [processTask, hobj] at h
    cases htask : JVal.getKey fields "task" with
    | none =>
      simp only [htask] at h
      exact Except.noConfusion h
    | some taskV =>
      simp only [htask] at h
      cases hp : pySplit ((JVal.getKey fields "schedule").getD (.jstr "")).pyStr with
      | nil =>
        simp only [hp] at h
        exact Except.noConfusion h
      | cons p0 tl =>
        cases tl with
        | nil =>
          simp only [hp] at h
          by_cases hdig : pyIsdigit p0
          · rw [if_pos (by rw [hdig])] at h
            cases hgoc : gocFull (⟨digitsToNat p0, "seconds"⟩ : IntervalKey) S.intervals with
            | error e => simp only [hgoc] at h; cases h
            | ok ivals' =>
              simp only [hgoc] at h
              cases huoc : Table.uoc name
                  (⟨taskV, none, some ⟨digitsToNat p0, "seconds"⟩⟩ : PTPayload)
                  S.periodicTasks with
              | error e => simp only [huoc] at h; cases h
              | ok pts' =>
                simp only [huoc] at h
                cases h
                exact ⟨_, atKey_uoc_ok _ _ _ _ huoc, Or.inr ⟨rfl, rfl⟩⟩
          · rw [if_neg (by simp [hdig])] at h
            cases h
        | cons p1 tl2 =>
          cases tl2 with
          | nil =>
            simp only [hp] at h
            exact Except.noConfusion h
          | cons p2 tl3 =>
            cases tl3 with
            | nil =>
              simp only [hp] at h
              exact Except.noConfusion h
            | cons p3 tl4 =>
              cases tl4 with
              | nil =>
                simp only [hp] at h
                exact Except.noConfusion h
              | cons p4 tl5 =>
                cases tl5 with
                | cons p5 tl6 =>
                  simp only [hp] at h
                  exact Except.noConfusion h
                | nil =>
                  simp only [hp] at h
                  cases hv : validate_schedule_format
                      ((JVal.getKey fields "schedule").getD (.jstr "")).pyStr with
                  | error e => simp only [hv] at h; cases h
                  | ok c =>
                    simp only [hv] at h
                    cases hgoc : gocFull c S.crontabs with
                    | error e => simp only [hgoc] at h; cases h
                    | ok crons' =>
                      simp only [hgoc] at h
                      cases huoc : Table.uoc name
                          (⟨taskV, some c, none⟩ : PTPayload) S.periodicTasks with
                      | error e => simp only [huoc] at h; cases h
                      | ok pts' =>
                        simp only [huoc] at h
                        cases h
                        exact ⟨_, atKey_uoc_ok _ _ _ _ huoc, Or.inl ⟨rfl, rfl⟩⟩

/-- Witness for C3: switching a task that currently has an interval
schedule to a cron schedule leaves the interval reference NULL. -/
theorem schedule_refs_exclusive_witness :
    ∃ S' p, processTask ⟨[], [⟨60, "seconds"⟩], [("t",
        ⟨.jstr "app.tasks.run", none, some ⟨60, "seconds"⟩⟩)]⟩ "t"
        (.obj [("task", .jstr "app.tasks.run"), ("schedule", .jstr "0 4 * * 0")])
        = .ok S' ∧
      Table.atKey S'.periodicTasks "t" = some p ∧
      ((p.crontab.isSome ∧ p.interval = none) ∨ (p.crontab = none ∧ p.interval.isSome)) := by
  have h : processTask ⟨[], [⟨60, "seconds"⟩], [("t",
      ⟨.jstr "app.tasks.run", none, some ⟨60, "seconds"⟩⟩)]⟩ "t"
      (.obj [("task", .jstr "app.tasks.run"), ("schedule", .jstr "0 4 * * 0")])
      = .ok ⟨[crontabOf "0" "4" "*" "*" "0"], [⟨60, "seconds"⟩],
          [("t", ⟨.jstr "app.tasks.run", some (crontabOf "0" "4" "*" "*" "0"), none⟩)]⟩ := by
    rfl
  obtain ⟨p, hat, hex⟩ := schedule_refs_exclusive _ _ _ _ h
  exact ⟨_, p, h, hat, hex⟩

/-! ## Claim C6: the exports cleanup task -/

theorem cleanupLoop_spec (failing : List String) (cutoff : Int)
    (files : List (String × Int)) :
    cleanupLoop failing cutoff files =
      (files.filter (fun f =>
         !(decide (f.2 < cutoff) && !failing.contains (exportPath f.1))),
       (files.filter (fun f =>
          decide (f.2 < cutoff) && failing.contains (exportPath f.1))).map
         (fun f => "Failed to delete " ++ exportPath f.1),
       (files.filter (fun f =>
          decide (f.2 < cutoff) && !failing.contains (exportPath f.1))).length) := by
  induction files with
  | nil => rfl
  | cons f fs ih =>
    by_cases hold : f.2 < cutoff
    · by_cases hfail : exportPath f.1 ∈ failing
      · simp [cleanupLoop, hold, hfail, ih, List.filter_cons]
      · simp [cleanupLoop, hold, hfail, ih, List.filter_cons]
    · simp [cleanupLoop, hold, ih, List.filter_cons]

/-- C6: the cleanup task reports an absent exports folder; otherwise it
deletes exactly the listed files whose modification time is strictly
before the cutoff 24 hours before now and whose deletion succeeds,
logs one failure line per failed deletion while continuing with the
rest, and always returns a human-readable status string — it is a total
function, so no exception escapes it. -/
theorem cleanup_exports_spec (st : Storage) :
    (st.exportsExists = false →
      cleanupExportsFolder st = (st, [], "Directory 'exports' not found in storage.")) ∧
    (st.exportsExists = true →
      (cleanupExportsFolder st).1 = { st with files := st.files.filter (fun f =>
         !(decide (f.2 < st.now - 24 * 3600) &&
           !st.failingDeletes.contains (exportPath f.1))) } ∧
      (cleanupExportsFolder st).2.1 = (st.files.filter (fun f =>
         decide (f.2 < st.now - 24 * 3600) &&
           st.failingDeletes.contains (exportPath f.1))).map
        (fun f => "Failed to delete " ++ exportPath f.1) ∧
      (cleanupExportsFolder st).2.2 = "Cleanup complete. Deleted " ++
        toString (st.files.filter (fun f => decide (f.2 < st.now - 24 * 3600) &&
          !st.failingDeletes.contains (exportPath f.1))).length ++ " files.") := by
  constructor
  · intro h
    rw [cleanupExportsFolder, h]
    rfl
  · intro h
    rw [cleanupExportsFolder, h]
    simp only [Bool.not_true, cleanupLoop_spec]
    exact ⟨rfl, rfl, rfl⟩

/-- Witness for C6: with one stale deletable file, one stale file whose
deletion fails, and one fresh file, the task deletes only the first,
logs the second, keeps the third, and reports one deletion; an absent
folder yields the not-found message. -/
theorem cleanup_exports_spec_witness :
    (cleanupExportsFolder ⟨true, [("a.csv", 0), ("b.csv", 0), ("c.csv", 100000)],
        ["exports/b.csv"], 90000⟩).1.files = [("b.csv", 0), ("c.csv", 100000)] ∧
    (cleanupExportsFolder ⟨true, [("a.csv", 0), ("b.csv", 0), ("c.csv", 100000)],
        ["exports/b.csv"], 90000⟩).2.1 = ["Failed to delete exports/b.csv"] ∧
    (cleanupExportsFolder ⟨true, [("a.csv", 0), ("b.csv", 0), ("c.csv", 100000)],
        ["exports/b.csv"], 90000⟩).2.2 = "Cleanup complete. Deleted 1 files." ∧
    (cleanupExportsFolder ⟨false, [("a.csv", 0)], [], 0⟩).2.2 =
      "Directory 'exports' not found in storage." := by
  have h := (cleanup_exports_spec ⟨true, [("a.csv", 0), ("b.csv", 0), ("c.csv", 100000)],
    ["exports/b.csv"], 90000⟩).2 rfl
  have h0 := (cleanup_exports_spec ⟨false, [("a.csv", 0)], [], 0⟩).1 rfl
  refine ⟨?_, ?_, ?_, ?_⟩
  · rw [h.1]
    decide
  · rw [h.2.1]
    decide
  · rw [h.2.2]
    decide
  · rw [h0]

/-! ## Claim C7: fixtures only load into empty tables -/

/-- The per-record step of the `loaddata` fold. -/
def loaddataStep (ts : FixTables) (r : JVal) : FixTables :=
  match fixRecordModel r with
  | some m => Table.uocPure m ((Table.atKey ts m).getD [] ++ [r]) ts
  | none => ts

theorem loaddata_eq_fold (known : List String) (tabs : FixTables) (data : List JVal)
    (hall : data.all (fixRecordOk known) = true) :
    loaddata known tabs data = some (data.foldl loaddataStep tabs) := by
  rw [loaddata, if_pos hall]
  rfl

theorem loaddataStep_len_mono (ts : FixTables) (r : JVal) (m : String) :
    ((Table.atKey ts m).getD []).length ≤
      ((Table.atKey (loaddataStep ts r) m).getD []).length := by
  rw [loaddataStep]
  cases hr : fixRecordModel r with
  | none => exact Nat.le_refl _
  | some m' =>
    rw [Table.atKey_uocPure]
    by_cases hm : m = m'
    · subst hm
      simp
    · rw [if_neg hm]

theorem loaddata_fold_len_mono (data : List JVal) (ts : FixTables) (m : String) :
    ((Table.atKey ts m).getD []).length ≤
      ((Table.atKey (data.foldl loaddataStep ts) m).getD []).length := by
  induction data generalizing ts with
  | nil => exact Nat.le_refl _
  | cons r rest ih =>
    rw [List.foldl_cons]
    exact Nat.le_trans (loaddataStep_len_mono ts r m) (ih (loaddataStep ts r))

theorem loaddata_fold_trigger (data : List JVal) (ts : FixTables) (r : JVal) (m : String)
    (hr : r ∈ data) (hm : fixRecordModel r = some m) :
    1 ≤ ((Table.atKey (data.foldl loaddataStep ts) m).getD []).length := by
  induction data generalizing ts with
  | nil => simp at hr
  | cons r₀ rest ih =>
    rw [List.foldl_cons]
    rcases List.mem_cons.mp hr with hh | hh
    · subst hh
      refine Nat.le_trans ?_ (loaddata_fold_len_mono rest (loaddataStep ts r) m)
      rw [loaddataStep, hm, Table.atKey_uocPure, if_pos rfl]
      simp
    · exact ih (loaddataStep ts r₀) hh

/-- C7: a well-formed fixture file is applied (its records loaded) if
and only if the table of its first record's model is currently empty;
on a non-empty table the fixture loader leaves every table unchanged. -/
theorem fixture_only_when_empty (known : List String) (tabs : FixTables)
    (data : List JVal) (first : JVal) (rest : List JVal) (m : String)
    (hdata : data = first :: rest)
    (hm : fixRecordModel first = some m)
    (hsplit : (splitDot m).length = 2)
    (hknown : known.contains m = true)
    (hall : data.all (fixRecordOk known) = true) :
    (((Table.atKey tabs m).getD []).isEmpty = true →
      loadFixtureFile known tabs (.valid data) = data.foldl loaddataStep tabs ∧
      loaddata known tabs data = some (data.foldl loaddataStep tabs) ∧
      ((Table.atKey (data.foldl loaddataStep tabs) m).getD []).isEmpty = false) ∧
    (((Table.atKey tabs m).getD []).isEmpty = false →
      loadFixtureFile known tabs (.valid data) = tabs) := by
  obtain ⟨a, b, hsd⟩ : ∃ a b, splitDot m = [a, b] := by
    cases hsd : splitDot m with
    | nil => rw [hsd] at hsplit; simp at hsplit
    | cons x xs =>
      cases xs with
      | nil => rw [hsd] at hsplit; simp at hsplit
      | cons y ys =>
        cases ys with
        | nil => exact ⟨x, y, rfl⟩
        | cons z zs => rw [hsd] at hsplit; simp at hsplit
  have hload := loaddata_eq_fold known tabs data hall
  constructor
  · intro hemp
    refine ⟨?_, hload, ?_⟩
    · subst hdata
      simp only [loadFixtureFile, hm, hsd, hknown, if_true, hemp, hload]
    · have h1 := loaddata_fold_trigger data tabs first m (by rw [hdata]; simp) hm
      cases hfin : (Table.atKey (data.foldl loaddataStep tabs) m).getD [] with
      | nil => rw [hfin] at h1; simp at h1
      | cons x xs => rfl
  · intro hemp
    subst hdata
    simp only [loadFixtureFile, hm, hsd, hknown, if_true, hemp]
    rfl

/-- Witness for C7: a one-record fixture loads into an empty table and
is skipped on a non-empty one. -/
theorem fixture_only_when_empty_witness :
    loadFixtureFile ["app.category"] []
        (.valid [.obj [("model", .jstr "app.category"), ("pk", .jnum 1)]]) =
      [("app.category", [.obj [("model", .jstr "app.category"), ("pk", .jnum 1)]])] ∧
    loadFixtureFile ["app.category"] [("app.category", [.jnum 0])]
        (.valid [.obj [("model", .jstr "app.category"), ("pk", .jnum 1)]]) =
      [("app.category", [.jnum 0])] := by
  constructor
  · rw [(fixture_only_when_empty ["app.category"] []
      [.obj [("model", .jstr "app.category"), ("pk", .jnum 1)]]
      (.obj [("model", .jstr "app.category"), ("pk", .jnum 1)]) [] "app.category"
      rfl (by decide) (by decide) (by decide) (by decide)).1 (by decide) |>.1]
    decide
  · exact (fixture_only_when_empty ["app.category"] [("app.category", [.jnum 0])]
      [.obj [("model", .jstr "app.category"), ("pk", .jnum 1)]]
      (.obj [("model", .jstr "app.category"), ("pk", .jnum 1)]) [] "app.category"
      rfl (by decide) (by decide) (by decide) (by decide)).2 (by decide)

/-! ## Claims C4 and C5: the orchestrator and the migration hook -/

theorem stepCreateApp_log (cfg : InstallConfig) (db : DB) :
    (stepCreateApp cfg db).log =
      db.log ++ [⟨.createApp, (createAppTable (appLookupOf cfg) db.apps).2⟩] := rfl

theorem stepOptions_log (cfg : InstallConfig) (db : DB) :
    (stepOptions cfg db).log =
      db.log ++ [⟨.options, (optionsLoad cfg.models cfg.optionsFile db.optTables).2.isNone⟩] := rfl

theorem stepPermissions_log (cfg : InstallConfig) (db : DB) :
    (stepPermissions cfg db).log =
      db.log ++ [⟨.permissions, (permissionsLoad cfg.app_name cfg.app_label cfg.verbose_name
        cfg.permissionsFile db.apps db.contentTypes db.perms db.appPerms).2.2.2.isNone⟩] := rfl

theorem stepFixtures_log (cfg : InstallConfig) (db : DB) :
    (stepFixtures cfg db).log = db.log ++ [⟨.fixtures, true⟩] := rfl

theorem stepSettings_log (cfg : InstallConfig) (db : DB) :
    (stepSettings cfg db).log =
      db.log ++ [⟨.settings, (settingsLoad cfg.app_name cfg.settingsFile db.appSettings).2.isNone⟩] := rfl

theorem stepTasks_log (cfg : InstallConfig) (db : DB) :
    (stepTasks cfg db).log =
      db.log ++ [⟨.tasks, (tasksLoad cfg.tasksFile db.tasksState).2.isNone⟩] := rfl

/-- The six log entries one `install` run appends: one outcome per
step, in execution order. -/
def installEvents (cfg : InstallConfig) (db : DB) : List Event :=
  let d1 := stepCreateApp cfg db
  let d2 := stepOptions cfg d1
  let d3 := stepPermissions cfg d2
  let d4 := stepFixtures cfg d3
  let d5 := stepSettings cfg d4
  [⟨.createApp, (createAppTable (appLookupOf cfg) db.apps).2⟩,
   ⟨.options, (optionsLoad cfg.models cfg.optionsFile d1.optTables).2.isNone⟩,
   ⟨.permissions, (permissionsLoad cfg.app_name cfg.app_label cfg.verbose_name
      cfg.permissionsFile d2.apps d2.contentTypes d2.perms d2.appPerms).2.2.2.isNone⟩,
   ⟨.fixtures, true⟩,
   ⟨.settings, (settingsLoad cfg.app_name cfg.settingsFile d4.appSettings).2.isNone⟩,
   ⟨.tasks, (tasksLoad cfg.tasksFile d5.tasksState).2.isNone⟩]

theorem install_log_shape (cfg : InstallConfig) (db : DB) :
    (install cfg db).log = db.log ++ installEvents cfg db := by
  rw [install, stepTasks_log, stepSettings_log, stepFixtures_log, stepPermissions_log,
    stepOptions_log, stepCreateApp_log, installEvents]
  simp [List.append_assoc]

theorem installEvents_steps (cfg : InstallConfig) (db : DB) :
    (installEvents cfg db).map Event.step =
      [.createApp, .options, .permissions, .fixtures, .settings, .tasks] := rfl

/-- A minimal sub-application configuration with every config file
absent. -/
def cfg0 : InstallConfig :=
  { app_name := "scholarmis.demo", app_label := "demo", verbose_name := "Demo",
    is_default := true, is_service := false, icon := none, url := none,
    models := [], knownModels := [], optionsFile := .missing, settingsFile := .missing,
    permissionsFile := .missing, fixturesDir := none, tasksFile := .missing }

/-- The empty database. -/
def db0 : DB := ⟨[], [], [], [], [], [], [], ⟨[], [], []⟩, []⟩

/-- C4 counterexample: after a migration event the connected receiver
(`AppsConfig.install`, apps.py 22-24) runs only the periodic-task step:
on an empty database it leaves the App table empty and its log shows a
single tasks step — while `AppInstaller.install` itself, which the
migration hook never calls, would run all six steps and register the
App record. -/
theorem postMigrate_only_tasks_cex :
    (postMigrateInstall cfg0 db0).apps = [] ∧
    ((postMigrateInstall cfg0 db0).log).map Event.step = [.tasks] ∧
    ((install cfg0 db0).log).map Event.step =
      [.createApp, .options, .permissions, .fixtures, .settings, .tasks] ∧
    (install cfg0 db0).apps ≠ [] := by
  refine ⟨rfl, rfl, ?_, ?_⟩ <;> decide

/-- C4 (amended): `AppInstaller.install` performs its steps in the
fixed order register app → load options → load permissions → load
fixtures → load settings → load periodic tasks; the post-migrate
receiver, however, invokes only the periodic-task step, not the full
sequence. -/
theorem install_fixed_order (cfg : InstallConfig) (db : DB) :
    ((install cfg db).log).map Event.step = db.log.map Event.step ++
      [.createApp, .options, .permissions, .fixtures, .settings, .tasks] ∧
    ((postMigrateInstall cfg db).log).map Event.step =
      db.log.map Event.step ++ [.tasks] := by
  constructor
  · rw [install_log_shape, List.map_append, installEvents_steps]
  · rw [postMigrateInstall, stepTasks_log]
    simp

/-- C5: the orchestrator is a total function — no error of any kind
escapes it — and, whatever the configuration and database, its log
gains exactly one outcome entry per step in order, so a failing step
(recorded as an `ok := false` entry via `log_error`) never prevents the
later steps from running. -/
theorem install_catches_step_errors (cfg : InstallConfig) (db : DB) :
    (install cfg db).log = db.log ++ installEvents cfg db ∧
    (installEvents cfg db).map Event.step =
      [.createApp, .options, .permissions, .fixtures, .settings, .tasks] ∧
    (install cfg db).log.take db.log.length = db.log :=
  ⟨install_log_shape cfg db, installEvents_steps cfg db,
   by rw [install_log_shape, List.take_left]⟩

/-! ## Claim C1: idempotence of a second installer run

The replay argument, table by table: re-running `create_app`, the
settings loader, the permissions loader, the fixture loader and the
periodic-task loader on their own output changes none of the claimed
record sets. -/

theorem toRow_matches (l : AppLookup) : (l.toRow).matchesLookup l = true := by
  simp [AppRec.matchesLookup, AppLookup.toRow]

theorem createAppTable_replay (l : AppLookup) (T : List AppRec) :
    (createAppTable l (createAppTable l T).1).1 = (createAppTable l T).1 := by
  by_cases h1 : T.any (fun a => a.matchesLookup l) = true
  · simp [createAppTable, h1]
  · by_cases h2 : T.any (fun a => a.name = l.name) = true
    · simp [createAppTable, h1, h2]
    · have hm : (T ++ [l.toRow]).any (fun a => a.matchesLookup l) = true := by
        rw [List.any_append]
        simp [toRow_matches]
      simp [createAppTable, h1, h2, hm]

/-- The prefix of settings entries the loop manages to apply before the
first malformed entry, as `update_or_create` operations. -/
def parsedPrefix (app : String) : List JVal → List ((String × JVal) × SettingPayload)
  | [] => []
  | v :: rest =>
    match parseSetting v with
    | .error _ => []
    | .ok np => ((app, np.1), np.2) :: parsedPrefix app rest

theorem settingsLoop_fst (app : String) (es : List JVal) (T : SettingsTable)
    (h : (Table.keys T).Nodup) :
    (settingsLoop app es T).1 = Table.applyUoc (parsedPrefix app es) T := by
  induction es generalizing T with
  | nil => rfl
  | cons v rest ih =>
    cases hv : parseSetting v with
    | error e => simp [settingsLoop, parsedPrefix, hv, Table.applyUoc]
    | ok np =>
      obtain ⟨n, p⟩ := np
      simp only [settingsLoop, parsedPrefix, hv, Table.uoc_of_nodup (app, n) p T h,
        Table.applyUoc]
      exact ih _ (Table.nodup_keys_uocPure _ _ _ h)

theorem settingsLoad_fst (app : String) (f : FileState) (T : SettingsTable)
    (h : (Table.keys T).Nodup) :
    (settingsLoad app f T).1 = T ∨
    ∃ es, (settingsLoad app f T).1 = Table.applyUoc (parsedPrefix app es) T := by
  cases f with
  | missing => exact Or.inl rfl
  | invalid => exact Or.inl rfl
  | valid v =>
    by_cases ht : (v.truthy && (v.asList).isSome) = true
    · refine Or.inr ⟨(v.asList).getD [], ?_⟩
      simp only [settingsLoad, readJsonFile, ht, if_true]
      exact settingsLoop_fst app _ T h
    · left
      simp [settingsLoad, readJsonFile, ht]

theorem settingsLoad_replay (app : String) (f : FileState) (T : SettingsTable)
    (h : (Table.keys T).Nodup) :
    (settingsLoad app f (settingsLoad app f T).1).1 = (settingsLoad app f T).1 := by
  cases f with
  | missing => rfl
  | invalid => rfl
  | valid v =>
    by_cases ht : (v.truthy && (v.asList).isSome) = true
    · simp only [settingsLoad, readJsonFile, ht, if_true]
      rw [settingsLoop_fst app _ T h,
        settingsLoop_fst app _ _ (Table.nodup_keys_applyUoc _ T h),
        Table.applyUoc_replay _ T h]
    · simp [settingsLoad, readJsonFile, ht]

theorem rowCount_le_one_of_nodup {ρ : Type} [DecidableEq ρ] (T : List ρ)
    (h : T.Nodup) (r : ρ) : rowCount r T ≤ 1 := by
  induction T with
  | nil => simp [rowCount]
  | cons x xs ih =>
    rw [List.nodup_cons] at h
    by_cases hx : x = r
    · subst hx
      have hzero : rowCount x xs = 0 := by
        rw [rowCount, List.length_eq_zero, List.filter_eq_nil_iff]
        intro a ha
        simp only [decide_eq_true_eq]
        intro hax
        exact h.1 (hax ▸ ha)
      have hstep : rowCount x (x :: xs) = rowCount x xs + 1 := by
        rw [rowCount, rowCount, List.filter_cons]
        simp
      omega
    · have : rowCount r (x :: xs) = rowCount r xs := by
        simp [rowCount, List.filter_cons, hx]
      rw [this]
      exact ih h.2

theorem rowCount_gocFull_ok_one {ρ : Type} [DecidableEq ρ] (r : ρ) (T T' : List ρ)
    (hok : gocFull r T = .ok T') : rowCount r T' = 1 := by
  rcases Nat.lt_or_ge (rowCount r T) 1 with h0 | h1
  · have h0' : rowCount r T = 0 := Nat.lt_one_iff.mp h0
    rw [gocFull_of_zero r T h0'] at hok
    cases hok
    rw [rowCount_append, rowCount_singleton, h0']
    simp
  · rcases Nat.lt_or_ge (rowCount r T) 2 with h2 | h2
    · have h1' : rowCount r T = 1 := by omega
      rw [gocFull_of_one r T h1'] at hok
      cases hok
      exact h1'
    · rw [gocFull_of_many r T h2] at hok
      cases hok

theorem gocFull_error_count {ρ : Type} [DecidableEq ρ] (r : ρ) (T : List ρ) (e : String)
    (herr : gocFull r T = .error e) : 2 ≤ rowCount r T := by
  rcases Nat.lt_or_ge (rowCount r T) 1 with h0 | h1
  · rw [gocFull_of_zero r T (Nat.lt_one_iff.mp h0)] at herr
    cases herr
  · rcases Nat.lt_or_ge (rowCount r T) 2 with h2 | h2
    · rw [gocFull_of_one r T (by omega)] at herr
      cases herr
    · exact h2

theorem gocFull_replay {ρ : Type} [DecidableEq ρ] (r : ρ) (T T' : List ρ)
    (hok : gocFull r T = .ok T') : gocFull r T' = .ok T' :=
  gocFull_of_one r T' (rowCount_gocFull_ok_one r T T' hok)

theorem gocPermission_mem (p : PermRec) (T T' : PermTable)
    (h : gocPermission p T = .ok T') : p ∈ T' ∧ ∃ ext, T' = T ++ ext := by
  rw [gocPermission] at h
  cases hf : T.filter (fun q => decide (q = p)) with
  | nil =>
    rw [hf] at h
    by_cases hk : T.any (fun q => permUniqueKey q = permUniqueKey p) = true
    · rw [if_pos hk] at h
      cases h
    · rw [if_neg hk] at h
      cases h
      exact ⟨by simp, [p], rfl⟩
  | cons x xs =>
    rw [hf] at h
    cases h
    have hx : x ∈ T.filter (fun q => decide (q = p)) := by rw [hf]; simp
    obtain ⟨hxT, hxp⟩ := List.mem_filter.mp hx
    simp only [decide_eq_true_eq] at hxp
    exact ⟨hxp ▸ hxT, [], by simp⟩

theorem gocPermission_of_mem (p : PermRec) (T : PermTable) (h : p ∈ T) :
    gocPermission p T = .ok T := by
  rw [gocPermission]
  cases hf : T.filter (fun q => decide (q = p)) with
  | nil =>
    have : p ∈ T.filter (fun q => decide (q = p)) := List.mem_filter.mpr ⟨h, by simp⟩
    rw [hf] at this
    simp at this
  | cons x xs => rfl


theorem addPermLink_mem (app : String) (p : PermRec) (L : AppPermLinks) :
    (app, p) ∈ addPermLink app p L ∧ ∃ ext, addPermLink app p L = L ++ ext := by
  rw [addPermLink]
  by_cases h : L.any (fun l => decide (l = (app, p))) = true
  · rw [if_pos h]
    obtain ⟨l, hl, hlp⟩ : ∃ l ∈ L, (fun l => decide (l = (app, p))) l = true := by
      rw [← List.any_eq_true]
      exact h
    simp only [decide_eq_true_eq] at hlp
    exact ⟨hlp ▸ hl, [], by simp⟩
  · rw [if_neg h]
    exact ⟨by simp, [(app, p)], rfl⟩

theorem addPermLink_of_mem (app : String) (p : PermRec) (L : AppPermLinks)
    (h : (app, p) ∈ L) : addPermLink app p L = L := by
  rw [addPermLink, if_pos]
  rw [List.any_eq_true]
  exact ⟨(app, p), h, by simp⟩

theorem permissionsLoop_mono (app : String) (ct : String × String) (es : List JVal) :
    ∀ (perms : PermTable) (links : AppPermLinks) perms' links' err,
    permissionsLoop app ct es perms links = (perms', links', err) →
    (∃ e1, perms' = perms ++ e1) ∧ ∃ e2, links' = links ++ e2 := by
  induction es with
  | nil =>
    intro perms links perms' links' err h
    rw [permissionsLoop] at h
    cases h
    exact ⟨⟨[], by simp⟩, ⟨[], by simp⟩⟩
  | cons v rest ih =>
    intro perms links perms' links' err h
    cases hobj : v.asObj with
    | none =>
      rw [permissionsLoop, hobj] at h
      cases h
      exact ⟨⟨[], by simp⟩, ⟨[], by simp⟩⟩
    | some fields =>
      simp only [permissionsLoop, hobj] at h
      cases hc : JVal.getKey fields "codename" with
      | none =>
        simp only [hc] at h
        cases h
        exact ⟨⟨[], by simp⟩, ⟨[], by simp⟩⟩
      | some cV =>
        simp only [hc] at h
        cases hn : JVal.getKey fields "name" with
        | none =>
          simp only [hn] at h
          cases h
          exact ⟨⟨[], by simp⟩, ⟨[], by simp⟩⟩
        | some nV =>
          simp only [hn] at h
          cases hgoc : gocPermission ⟨cV, nV, ct⟩ perms with
          | error e =>
            simp only [hgoc] at h
            cases h
            exact ⟨⟨[], by simp⟩, ⟨[], by simp⟩⟩
          | ok perms₁ =>
            simp only [hgoc] at h
            obtain ⟨⟨e1, he1⟩, ⟨e2, he2⟩⟩ := ih _ _ _ _ _ h
            obtain ⟨_, ext₁, hext₁⟩ := gocPermission_mem _ _ _ hgoc
            obtain ⟨_, ext₂, hext₂⟩ := addPermLink_mem app ⟨cV, nV, ct⟩ links
            refine ⟨⟨ext₁ ++ e1, ?_⟩, ⟨ext₂ ++ e2, ?_⟩⟩
            · rw [he1, hext₁, List.append_assoc]
            · rw [he2, hext₂, List.append_assoc]

theorem permissionsLoop_replay (app : String) (ct : String × String)
    (es : List JVal) : ∀ (perms : PermTable) (links : AppPermLinks)
    (perms' : PermTable) (links' : AppPermLinks) (err : Option String),
    permissionsLoop app ct es perms links = (perms', links', err) →
    permissionsLoop app ct es perms' links' = (perms', links', err) := by
  induction es with
  | nil =>
    intro perms links perms' links' err h
    rw [permissionsLoop] at h
    cases h
    rfl
  | cons v rest ih =>
    intro perms links perms' links' err h
    cases hobj : v.asObj with
    | none =>
      rw [permissionsLoop, hobj] at h
      cases h
      rw [permissionsLoop, hobj]
    | some fields =>
      simp only [permissionsLoop, hobj] at h
      cases hc : JVal.getKey fields "codename" with
      | none =>
        simp only [hc] at h
        cases h
        simp only [permissionsLoop, hobj, hc]
      | some cV =>
        simp only [hc] at h
        cases hn : JVal.getKey fields "name" with
        | none =>
          simp only [hn] at h
          cases h
          simp only [permissionsLoop, hobj, hc, hn]
        | some nV =>
          simp only [hn] at h
          cases hgoc : gocPermission ⟨cV, nV, ct⟩ perms with
          | error e =>
            simp only [hgoc] at h
            cases h
            simp only [permissionsLoop, hobj, hc, hn, hgoc]
          | ok perms₁ =>
            simp only [hgoc] at h
            have hreplay := ih _ _ _ _ _ h
            obtain ⟨hp₁, ext₁, hext₁⟩ := gocPermission_mem _ _ _ hgoc
            obtain ⟨hl₁, ext₂, hext₂⟩ := addPermLink_mem app ⟨cV, nV, ct⟩ links
            obtain ⟨⟨e1, he1⟩, ⟨e2, he2⟩⟩ := permissionsLoop_mono app ct rest _ _ _ _ _ h
            have hpmem : (⟨cV, nV, ct⟩ : PermRec) ∈ perms' := by
              rw [he1]
              exact List.mem_append_left _ hp₁
            have hlmem : (app, (⟨cV, nV, ct⟩ : PermRec)) ∈ links' := by
              rw [he2]
              exact List.mem_append_left _ hl₁
            simp only [permissionsLoop, hobj, hc, hn, gocPermission_of_mem _ _ hpmem,
              addPermLink_of_mem _ _ _ hlmem]
            exact hreplay

/-- Replaying `Permissions.load` on its own output changes nothing,
under the content-type table's uniqueness invariant. -/
theorem permissionsLoad_replay (appName label verbose : String) (f : FileState)
    (A : List AppRec) (cts : List (String × String)) (perms : PermTable)
    (links : AppPermLinks) (hcts : cts.Nodup) :
    permissionsLoad appName label verbose f A
        (permissionsLoad appName label verbose f A cts perms links).1
        (permissionsLoad appName label verbose f A cts perms links).2.1
        (permissionsLoad appName label verbose f A cts perms links).2.2.1 =
      permissionsLoad appName label verbose f A cts perms links := by
  cases f with
  | missing => rfl
  | invalid => rfl
  | valid v =>
    by_cases ht : (v.truthy && validatePermissions v) = true
    · cases hgoc : gocFull (label, verbose) cts with
      | error e =>
        have h2 : 2 ≤ rowCount (label, verbose) cts := gocFull_error_count _ _ _ hgoc
        have h1 : rowCount (label, verbose) cts ≤ 1 :=
          rowCount_le_one_of_nodup cts hcts _
        omega
      | ok cts' =>
        cases happ : getAppByName A appName with
        | error e =>
          have hinner : permissionsLoad appName label verbose (.valid v) A cts perms links
              = (cts', perms, links, some e) := by
            simp only [permissionsLoad, readJsonFile, ht, if_true, hgoc, happ]
          rw [hinner]
          simp only [permissionsLoad, readJsonFile, ht, if_true,
            gocFull_replay _ _ _ hgoc, happ]
        | ok a =>
          cases hloop : permissionsLoop appName (label, verbose) ((v.asList).getD [])
              perms links with
          | mk perms' rest2 =>
            obtain ⟨links', err⟩ := rest2
            have hinner : permissionsLoad appName label verbose (.valid v) A cts perms links
                = (cts', perms', links', err) := by
              simp only [permissionsLoad, readJsonFile, ht, if_true, hgoc, happ, hloop]
            rw [hinner]
            simp only [permissionsLoad, readJsonFile, ht, if_true,
              gocFull_replay _ _ _ hgoc, happ,
              permissionsLoop_replay appName (label, verbose) _ _ _ _ _ _ hloop]
    · simp [permissionsLoad, readJsonFile, ht]

theorem uoc_ok_eq_uocPure {κ δ : Type} [DecidableEq κ] (k : κ) (d : δ)
    (T T' : List (κ × δ)) (hnd : (Table.keys T).Nodup)
    (h : Table.uoc k d T = .ok T') : T' = Table.uocPure k d T := by
  rw [Table.uoc_of_nodup k d T hnd] at h
  cases h
  rfl

theorem setKey_of_not_mem {κ δ : Type} [DecidableEq κ] (T : List (κ × δ)) (k : κ) (d : δ)
    (h : ¬ k ∈ Table.keys T) : Table.setKey T k d = T := by
  induction T with
  | nil => rfl
  | cons r T ih =>
    simp only [Table.keys_cons, List.mem_cons] at h
    push_neg at h
    have hr : ¬ r.1 = k := fun hh => h.1 hh.symm
    rw [Table.setKey_cons, if_neg hr, ih h.2]

theorem setKey_id {κ δ : Type} [DecidableEq κ] (T : List (κ × δ)) (k : κ) (d : δ)
    (hnd : (Table.keys T).Nodup) (h : Table.atKey T k = some d) :
    Table.setKey T k d = T := by
  induction T with
  | nil => cases h
  | cons r T ih =>
    obtain ⟨rk, rv⟩ := r
    simp only [Table.keys_cons, List.nodup_cons] at hnd
    by_cases hr : rk = k
    · subst hr
      rw [Table.atKey_cons, if_pos rfl] at h
      injection h with hd
      have hd' : rv = d := hd
      rw [Table.setKey_cons, if_pos rfl, ← hd', setKey_of_not_mem T rk rv hnd.1]
    · rw [Table.atKey_cons, if_neg hr] at h
      rw [Table.setKey_cons, if_neg hr, ih hnd.2 h]

theorem hasKey_of_atKey {κ δ : Type} [DecidableEq κ] (T : List (κ × δ)) (k : κ) (d : δ)
    (h : Table.atKey T k = some d) : Table.hasKey T k = true := by
  by_contra hn
  rw [Table.atKey_eq_none T k
    (fun hm => hn ((Table.hasKey_iff T k).mpr hm))] at h
  cases h

theorem uocPure_id {κ δ : Type} [DecidableEq κ] (T : List (κ × δ)) (k : κ) (d : δ)
    (hnd : (Table.keys T).Nodup) (h : Table.atKey T k = some d) :
    Table.uocPure k d T = T := by
  rw [Table.uocPure, if_pos (hasKey_of_atKey T k d h)]
  exact setKey_id T k d hnd h

/-- What a successful `processTask` does to the three tables: the
crontab and interval tables either stay or undergo one successful
`get_or_create`, and the task table undergoes one successful
`update_or_create` keyed by the task's name. -/
theorem processTask_ok_tables (S : TasksState) (n : String) (d : JVal) (S' : TasksState)
    (h : processTask S n d = .ok S') :
    (S'.crontabs = S.crontabs ∨ ∃ c, gocFull c S.crontabs = .ok S'.crontabs) ∧
    (S'.intervals = S.intervals ∨ ∃ i, gocFull i S.intervals = .ok S'.intervals) ∧
    ∃ p, Table.uoc n p S.periodicTasks = .ok S'.periodicTasks := by
  cases hobj : d.asObj with
  | none =>
    simp only [processTask, hobj] at h
    exact Except.noConfusion h
  | some fields =>
    simp only [processTask, hobj] at h
    cases htask : JVal.getKey fields "task" with
    | none =>
      simp only [htask] at h
      exact Except.noConfusion h
    | some taskV =>
      simp only [htask] at h
      cases hp : pySplit ((JVal.getKey fields "schedule").getD (.jstr "")).pyStr with
      | nil =>
        simp only [hp] at h
        exact Except.noConfusion h
      | cons p0 tl =>
        cases tl with
        | nil =>
          simp only [hp] at h
          by_cases hdig : pyIsdigit p0
          · rw [if_pos (by rw [hdig])] at h
            cases hgoc : gocFull (⟨digitsToNat p0, "seconds"⟩ : IntervalKey) S.intervals with
            | error e =>
              simp only [hgoc] at h
              exact Except.noConfusion h
            | ok ivals' =>
              simp only [hgoc] at h
              cases huoc : Table.uoc n
                  (⟨taskV, none, some ⟨digitsToNat p0, "seconds"⟩⟩ : PTPayload)
                  S.periodicTasks with
              | error e =>
                simp only [huoc] at h
                exact Except.noConfusion h
              | ok pts' =>
                simp only [huoc] at h
                cases h
                exact ⟨Or.inl rfl, Or.inr ⟨_, hgoc⟩, _, huoc⟩
          · rw [if_neg (by simp [hdig])] at h
            exact Except.noConfusion h
        | cons p1 tl2 =>
          cases tl2 with
          | nil =>
            simp only [hp] at h
            exact Except.noConfusion h
          | cons p2 tl3 =>
            cases tl3 with
            | nil =>
              simp only [hp] at h
              exact Except.noConfusion h
            | cons p3 tl4 =>
              cases tl4 with
              | nil =>
                simp only [hp] at h
                exact Except.noConfusion h
              | cons p4 tl5 =>
                cases tl5 with
                | cons p5 tl6 =>
                  simp only [hp] at h
                  exact Except.noConfusion h
                | nil =>
                  simp only [hp] at h
                  cases hv : validate_schedule_format
                      ((JVal.getKey fields "schedule").getD (.jstr "")).pyStr with
                  | error e =>
                    simp only [hv] at h
                    exact Except.noConfusion h
                  | ok c =>
                    simp only [hv] at h
                    cases hgoc : gocFull c S.crontabs with
                    | error e =>
                      simp only [hgoc] at h
                      exact Except.noConfusion h
                    | ok crons' =>
                      simp only [hgoc] at h
                      cases huoc : Table.uoc n
                          (⟨taskV, some c, none⟩ : PTPayload) S.periodicTasks with
                      | error e =>
                        simp only [huoc] at h
                        exact Except.noConfusion h
                      | ok pts' =>
                        simp only [huoc] at h
                        cases h
                        exact ⟨Or.inr ⟨_, hgoc⟩, Or.inl rfl, _, huoc⟩

theorem processTask_pts_nodup (S : TasksState) (n : String) (d : JVal) (S' : TasksState)
    (h : processTask S n d = .ok S')
    (hnd : (Table.keys S.periodicTasks).Nodup) :
    (Table.keys S'.periodicTasks).Nodup := by
  obtain ⟨_, _, p, huoc⟩ := processTask_ok_tables S n d S' h
  rw [uoc_ok_eq_uocPure n p _ _ hnd huoc]
  exact Table.nodup_keys_uocPure n p _ hnd

theorem tasksLoop_nodup (es : List (String × JVal)) (S : TasksState)
    (hnd : (Table.keys S.periodicTasks).Nodup) :
    (Table.keys (tasksLoop es S).periodicTasks).Nodup := by
  induction es generalizing S with
  | nil => exact hnd
  | cons e rest ih =>
    obtain ⟨n, d⟩ := e
    cases hstep : processTask S n d with
    | error e₀ =>
      simp only [tasksLoop, hstep]
      exact ih S hnd
    | ok S'' =>
      simp only [tasksLoop, hstep]
      exact ih S'' (processTask_pts_nodup S n d S'' hstep hnd)

theorem tasksLoop_counts (es : List (String × JVal)) (S : TasksState) :
    (∀ c, 1 ≤ rowCount c S.crontabs →
       rowCount c (tasksLoop es S).crontabs = rowCount c S.crontabs) ∧
    (∀ i, 1 ≤ rowCount i S.intervals →
       rowCount i (tasksLoop es S).intervals = rowCount i S.intervals) := by
  induction es generalizing S with
  | nil => exact ⟨fun _ _ => rfl, fun _ _ => rfl⟩
  | cons e rest ih =>
    obtain ⟨n, d⟩ := e
    cases hstep : processTask S n d with
    | error e₀ =>
      simp only [tasksLoop, hstep]
      exact ih S
    | ok S'' =>
      simp only [tasksLoop, hstep]
      obtain ⟨hcr, hiv, _⟩ := processTask_ok_tables S n d S'' hstep
      constructor
      · intro c hc
        have hc'' : rowCount c S''.crontabs = rowCount c S.crontabs := by
          rcases hcr with he | ⟨c', hgoc⟩
          · rw [he]
          · exact rowCount_gocFull_ok c c' _ _ hc hgoc
        rw [(ih S'').1 c (by rw [hc'']; exact hc), hc'']
      · intro i hi
        have hi'' : rowCount i S''.intervals = rowCount i S.intervals := by
          rcases hiv with he | ⟨i', hgoc⟩
          · rw [he]
          · exact rowCount_gocFull_ok i i' _ _ hi hgoc
        rw [(ih S'').2 i (by rw [hi'']; exact hi), hi'']

theorem atKey_uocPure_other {κ δ : Type} [DecidableEq κ] (k : κ) (d : δ)
    (T : List (κ × δ)) (n : κ) (hne : ¬ n = k) :
    Table.atKey (Table.uocPure k d T) n = Table.atKey T n := by
  rw [Table.atKey_uocPure, if_neg hne]

theorem tasksLoop_pts_atKey (es : List (String × JVal)) (S : TasksState) (n : String)
    (hn : ¬ n ∈ es.map (·.1)) (hnd : (Table.keys S.periodicTasks).Nodup) :
    Table.atKey (tasksLoop es S).periodicTasks n = Table.atKey S.periodicTasks n := by
  induction es generalizing S with
  | nil => rfl
  | cons e rest ih =>
    obtain ⟨n₀, d₀⟩ := e
    simp only [List.map_cons, List.mem_cons] at hn
    push_neg at hn
    cases hstep : processTask S n₀ d₀ with
    | error e₀ =>
      simp only [tasksLoop, hstep]
      exact ih S hn.2 hnd
    | ok S'' =>
      simp only [tasksLoop, hstep]
      obtain ⟨_, _, p, huoc⟩ := processTask_ok_tables S n₀ d₀ S'' hstep
      have hpts : S''.periodicTasks = Table.uocPure n₀ p S.periodicTasks :=
        uoc_ok_eq_uocPure n₀ p _ _ hnd huoc
      rw [ih S'' hn.2 (processTask_pts_nodup S n₀ d₀ S'' hstep hnd), hpts,
        atKey_uocPure_other n₀ p _ n hn.1]

/-- Re-running one successfully processed task entry against any later
state that still holds the entry's footprint (its task row unchanged,
schedule-row counts preserved) succeeds and leaves that state intact. -/
theorem processTask_replay (S S' S₁ : TasksState) (n : String) (d : JVal)
    (h : processTask S n d = .ok S')
    (hnd₁ : (Table.keys S₁.periodicTasks).Nodup)
    (hpt : Table.atKey S₁.periodicTasks n = Table.atKey S'.periodicTasks n)
    (hcr : ∀ c, 1 ≤ rowCount c S'.crontabs →
      rowCount c S₁.crontabs = rowCount c S'.crontabs)
    (hiv : ∀ i, 1 ≤ rowCount i S'.intervals →
      rowCount i S₁.intervals = rowCount i S'.intervals) :
    processTask S₁ n d = .ok S₁ := by
  cases hobj : d.asObj with
  | none =>
    simp only [processTask, hobj] at h
    exact Except.noConfusion h
  | some fields =>
    simp only [processTask, hobj] at h ⊢
    cases htask : JVal.getKey fields "task" with
    | none =>
      simp only [htask] at h
      exact Except.noConfusion h
    | some taskV =>
      simp only [htask] at h ⊢
      cases hp : pySplit ((JVal.getKey fields "schedule").getD (.jstr "")).pyStr with
      | nil =>
        simp only [hp] at h
        exact Except.noConfusion h
      | cons p0 tl =>
        cases tl with
        | nil =>
          simp only [hp] at h ⊢
          by_cases hdig : pyIsdigit p0
          · rw [if_pos (by rw [hdig])] at h
            rw [if_pos (by rw [hdig])]
            cases hgoc : gocFull (⟨digitsToNat p0, "seconds"⟩ : IntervalKey) S.intervals with
            | error e =>
              simp only [hgoc] at h
              exact Except.noConfusion h
            | ok ivals' =>
              simp only [hgoc] at h
              cases huoc : Table.uoc n
                  (⟨taskV, none, some ⟨digitsToNat p0, "seconds"⟩⟩ : PTPayload)
                  S.periodicTasks with
              | error e =>
                simp only [huoc] at h
                exact Except.noConfusion h
              | ok pts' =>
                simp only [huoc] at h
                cases h
                have hione : rowCount (⟨digitsToNat p0, "seconds"⟩ : IntervalKey)
                    S₁.intervals = 1 := by
                  rw [hiv _ (by rw [rowCount_gocFull_ok_one _ _ _ hgoc])]
                  exact rowCount_gocFull_ok_one _ _ _ hgoc
                have hat : Table.atKey S₁.periodicTasks n =
                    some ⟨taskV, none, some ⟨digitsToNat p0, "seconds"⟩⟩ := by
                  rw [hpt]
                  exact atKey_uoc_ok _ _ _ _ huoc
                rw [gocFull_of_one _ _ hione,
                  Table.uoc_of_nodup n _ S₁.periodicTasks hnd₁,
                  uocPure_id _ _ _ hnd₁ hat]
          · rw [if_neg (by simp [hdig])] at h
            exact Except.noConfusion h
        | cons p1 tl2 =>
          cases tl2 with
          | nil =>
            simp only [hp] at h
            exact Except.noConfusion h
          | cons p2 tl3 =>
            cases tl3 with
            | nil =>
              simp only [hp] at h
              exact Except.noConfusion h
            | cons p3 tl4 =>
              cases tl4 with
              | nil =>
                simp only [hp] at h
                exact Except.noConfusion h
              | cons p4 tl5 =>
                cases tl5 with
                | cons p5 tl6 =>
                  simp only [hp] at h
                  exact Except.noConfusion h
                | nil =>
                  simp only [hp] at h ⊢
                  cases hv : validate_schedule_format
                      ((JVal.getKey fields "schedule").getD (.jstr "")).pyStr with
                  | error e =>
                    simp only [hv] at h
                    exact Except.noConfusion h
                  | ok c =>
                    simp only [hv] at h ⊢
                    cases hgoc : gocFull c S.crontabs with
                    | error e =>
                      simp only [hgoc] at h
                      exact Except.noConfusion h
                    | ok crons' =>
                      simp only [hgoc] at h
                      cases huoc : Table.uoc n
                          (⟨taskV, some c, none⟩ : PTPayload) S.periodicTasks with
                      | error e =>
                        simp only [huoc] at h
                        exact Except.noConfusion h
                      | ok pts' =>
                        simp only [huoc] at h
                        cases h
                        have hcone : rowCount c S₁.crontabs = 1 := by
                          rw [hcr c (by rw [rowCount_gocFull_ok_one _ _ _ hgoc])]
                          exact rowCount_gocFull_ok_one _ _ _ hgoc
                        have hat : Table.atKey S₁.periodicTasks n =
                            some ⟨taskV, some c, none⟩ := by
                          rw [hpt]
                          exact atKey_uoc_ok _ _ _ _ huoc
                        rw [gocFull_of_one _ _ hcone,
                          Table.uoc_of_nodup n _ S₁.periodicTasks hnd₁,
                          uocPure_id _ _ _ hnd₁ hat]

/-- Re-running a failed task entry against a later state with preserved
schedule-row counts fails again (the classification errors depend only
on the entry, and a duplicated schedule row stays duplicated). -/
theorem processTask_error_replay (S S₁ : TasksState) (n : String) (d : JVal) (e : String)
    (h : processTask S n d = .error e)
    (hndS : (Table.keys S.periodicTasks).Nodup)
    (hcr : ∀ c, 1 ≤ rowCount c S.crontabs →
      rowCount c S₁.crontabs = rowCount c S.crontabs)
    (hiv : ∀ i, 1 ≤ rowCount i S.intervals →
      rowCount i S₁.intervals = rowCount i S.intervals) :
    ∃ e', processTask S₁ n d = .error e' := by
  cases hobj : d.asObj with
  | none =>
    exact ⟨"AttributeError", by simp only [processTask, hobj]⟩
  | some fields =>
    simp only [processTask, hobj] at h ⊢
    cases htask : JVal.getKey fields "task" with
    | none =>
      exact ⟨"KeyError", by simp only [htask]⟩
    | some taskV =>
      simp only [htask] at h ⊢
      cases hp : pySplit ((JVal.getKey fields "schedule").getD (.jstr "")).pyStr with
      | nil =>
        exact ⟨"Unknown schedule format: " ++ ((JVal.getKey fields "schedule").getD (.jstr "")).pyStr, by simp only [hp]⟩
      | cons p0 tl =>
        cases tl with
        | nil =>
          simp only [hp] at h ⊢
          by_cases hdig : pyIsdigit p0
          · rw [if_pos (by rw [hdig])] at h
            rw [if_pos (by rw [hdig])]
            cases hgoc : gocFull (⟨digitsToNat p0, "seconds"⟩ : IntervalKey) S.intervals with
            | error e₁ =>
              have h2 : 2 ≤ rowCount (⟨digitsToNat p0, "seconds"⟩ : IntervalKey)
                  S.intervals := gocFull_error_count _ _ _ hgoc
              have h2' : 2 ≤ rowCount (⟨digitsToNat p0, "seconds"⟩ : IntervalKey)
                  S₁.intervals := by
                rw [hiv _ (by omega)]
                exact h2
              refine ⟨"MultipleObjectsReturned", ?_⟩
              rw [gocFull_of_many _ _ h2']
            | ok ivals' =>
              simp only [hgoc] at h
              rw [Table.uoc_of_nodup n _ S.periodicTasks hndS] at h
              exact Except.noConfusion h
          · exact ⟨"Unknown schedule format: " ++ ((JVal.getKey fields "schedule").getD (.jstr "")).pyStr, by rw [if_neg (by simp [hdig])]⟩
        | cons p1 tl2 =>
          cases tl2 with
          | nil =>
            exact ⟨"Unknown schedule format: " ++ ((JVal.getKey fields "schedule").getD (.jstr "")).pyStr, by simp only [hp]⟩
          | cons p2 tl3 =>
            cases tl3 with
            | nil =>
              exact ⟨"Unknown schedule format: " ++ ((JVal.getKey fields "schedule").getD (.jstr "")).pyStr, by simp only [hp]⟩
            | cons p3 tl4 =>
              cases tl4 with
              | nil =>
                exact ⟨"Unknown schedule format: " ++ ((JVal.getKey fields "schedule").getD (.jstr "")).pyStr, by simp only [hp]⟩
              | cons p4 tl5 =>
                cases tl5 with
                | cons p5 tl6 =>
                  exact ⟨"Unknown schedule format: " ++ ((JVal.getKey fields "schedule").getD (.jstr "")).pyStr, by simp only [hp]⟩
                | nil =>
                  simp only [hp] at h ⊢
                  cases hv : validate_schedule_format
                      ((JVal.getKey fields "schedule").getD (.jstr "")).pyStr with
                  | error e₁ =>
                    exact ⟨e₁, by simp only [hv]⟩
                  | ok c =>
                    simp only [hv] at h ⊢
                    cases hgoc : gocFull c S.crontabs with
                    | error e₁ =>
                      have h2 : 2 ≤ rowCount c S.crontabs :=
                        gocFull_error_count _ _ _ hgoc
                      have h2' : 2 ≤ rowCount c S₁.crontabs := by
                        rw [hcr c (by omega)]
                        exact h2
                      refine ⟨"MultipleObjectsReturned", ?_⟩
                      rw [gocFull_of_many _ _ h2']
                    | ok crons' =>
                      simp only [hgoc] at h
                      rw [Table.uoc_of_nodup n _ S.periodicTasks hndS] at h
                      exact Except.noConfusion h

theorem tasksLoop_replay (es : List (String × JVal)) (S : TasksState)
    (hnd : (Table.keys S.periodicTasks).Nodup)
    (hnames : (es.map (·.1)).Nodup) :
    tasksLoop es (tasksLoop es S) = tasksLoop es S := by
  induction es generalizing S with
  | nil => rfl
  | cons e rest ih =>
    obtain ⟨n, d⟩ := e
    simp only [List.map_cons, List.nodup_cons] at hnames
    cases hstep : processTask S n d with
    | error e₀ =>
      have hS₁ : tasksLoop ((n, d) :: rest) S = tasksLoop rest S := by
        simp only [tasksLoop, hstep]
      rw [hS₁]
      obtain ⟨e', he'⟩ := processTask_error_replay S (tasksLoop rest S) n d e₀ hstep hnd
        (tasksLoop_counts rest S).1 (tasksLoop_counts rest S).2
      rw [tasksLoop, he']
      exact ih S hnd hnames.2
    | ok S'' =>
      have hS₁ : tasksLoop ((n, d) :: rest) S = tasksLoop rest S'' := by
        simp only [tasksLoop, hstep]
      rw [hS₁]
      have hnd'' : (Table.keys S''.periodicTasks).Nodup :=
        processTask_pts_nodup S n d S'' hstep hnd
      have hrep := processTask_replay S S'' (tasksLoop rest S'') n d hstep
        (tasksLoop_nodup rest S'' hnd'')
        (tasksLoop_pts_atKey rest S'' n hnames.1 hnd'')
        (tasksLoop_counts rest S'').1 (tasksLoop_counts rest S'').2
      rw [tasksLoop, hrep]
      exact ih S'' hnd'' hnames.2

/-- The task entries a tasks file yields to the loader's loop. -/
def tasksFileEntries : TasksFile → List (String × JVal)
  | .parsed v => (((if v.truthy then v else .onil).asObj)).getD []
  | _ => []

theorem tasksLoad_replay (file : TasksFile) (S : TasksState)
    (hnd : (Table.keys S.periodicTasks).Nodup)
    (hnames : ((tasksFileEntries file).map (·.1)).Nodup) :
    (tasksLoad file (tasksLoad file S).1).1 = (tasksLoad file S).1 := by
  cases file with
  | missing => rfl
  | invalid => rfl
  | parsed v =>
    cases hov : (if v.truthy then v else JVal.onil).asObj with
    | none => simp [tasksLoad, hov]
    | some entries =>
      have hents : tasksFileEntries (.parsed v) = entries := by
        rw [tasksFileEntries, hov]
        rfl
      rw [hents] at hnames
      simp only [tasksLoad, hov]
      exact tasksLoop_replay entries S hnd hnames

theorem loadFixtureFile_len_mono (known : List String) (tabs : FixTables)
    (f : FixtureFile) (m : String) :
    ((Table.atKey tabs m).getD []).length ≤
      ((Table.atKey (loadFixtureFile known tabs f) m).getD []).length := by
  cases f with
  | invalid => exact Nat.le_refl _
  | valid data =>
    cases data with
    | nil => exact Nat.le_refl _
    | cons first rest =>
      cases hfm : fixRecordModel first with
      | none =>
        simp only [loadFixtureFile, hfm]
        exact Nat.le_refl _
      | some m₀ =>
        cases hsd : splitDot m₀ with
        | nil =>
          simp only [loadFixtureFile, hfm, hsd]
          exact Nat.le_refl _
        | cons a tl =>
          cases tl with
          | nil =>
            simp only [loadFixtureFile, hfm, hsd]
            exact Nat.le_refl _
          | cons b tl2 =>
            cases tl2 with
            | cons c tl3 =>
              simp only [loadFixtureFile, hfm, hsd]
              exact Nat.le_refl _
            | nil =>
              simp only [loadFixtureFile, hfm, hsd]
              by_cases hk : known.contains m₀ = true
              · rw [if_pos hk]
                by_cases he : ((Table.atKey tabs m₀).getD []).isEmpty = true
                · rw [if_pos he]
                  cases hld : loaddata known tabs (first :: rest) with
                  | none => exact Nat.le_refl _
                  | some tabs' =>
                    have heq : tabs' = (first :: rest).foldl loaddataStep tabs := by
                      rw [loaddata] at hld
                      by_cases hall : ((first :: rest).all (fixRecordOk known)) = true
                      · rw [if_pos hall] at hld
                        cases hld
                        rfl
                      · rw [if_neg hall] at hld
                        cases hld
                    rw [heq]
                    exact loaddata_fold_len_mono (first :: rest) tabs m
                · rw [if_neg he]
              · rw [if_neg hk]

theorem fixturesFold_len_mono (known : List String) (files : List FixtureFile)
    (tabs : FixTables) (m : String) :
    ((Table.atKey tabs m).getD []).length ≤
      ((Table.atKey (files.foldl (loadFixtureFile known) tabs) m).getD []).length := by
  induction files generalizing tabs with
  | nil => exact Nat.le_refl _
  | cons f fs ih =>
    rw [List.foldl_cons]
    exact Nat.le_trans (loadFixtureFile_len_mono known tabs f m)
      (ih (loadFixtureFile known tabs f))

/-- One fixture file is a no-op on any state that already contains (or
fails to contain, for configuration reasons) its footprint: in
particular on the final state of a fixture pass that included it. -/
theorem loadFixtureFile_noop (known : List String) (tabs F : FixTables)
    (f : FixtureFile)
    (hmono : ∀ m, ((Table.atKey tabs m).getD []).length ≤
       ((Table.atKey F m).getD []).length)
    (hfp : ∀ data first rest m, f = .valid data → data = first :: rest →
       fixRecordModel first = some m → (splitDot m).length = 2 →
       known.contains m = true → ((Table.atKey tabs m).getD []).isEmpty = true →
       (loaddata known tabs data = none) ∨
         ¬ ((Table.atKey F m).getD []).isEmpty = true) :
    loadFixtureFile known F f = F := by
  cases f with
  | invalid => rfl
  | valid data =>
    cases data with
    | nil => rfl
    | cons first rest =>
      cases hfm : fixRecordModel first with
      | none => simp only [loadFixtureFile, hfm]
      | some m₀ =>
        cases hsd : splitDot m₀ with
        | nil => simp only [loadFixtureFile, hfm, hsd]
        | cons a tl =>
          cases tl with
          | nil => simp only [loadFixtureFile, hfm, hsd]
          | cons b tl2 =>
            cases tl2 with
            | cons c tl3 => simp only [loadFixtureFile, hfm, hsd]
            | nil =>
              simp only [loadFixtureFile, hfm, hsd]
              by_cases hk : known.contains m₀ = true
              · rw [if_pos hk]
                by_cases he : ((Table.atKey F m₀).getD []).isEmpty = true
                · rw [if_pos he]
                  -- the table is empty even in the final state, so it was
                  -- empty initially and loaddata must have failed for
                  -- configuration reasons
                  have hemp0 : ((Table.atKey tabs m₀).getD []).isEmpty = true := by
                    have hlen := hmono m₀
                    cases h0 : (Table.atKey tabs m₀).getD [] with
                    | nil => rfl
                    | cons x xs =>
                      rw [h0] at hlen
                      cases hF : (Table.atKey F m₀).getD [] with
                      | nil =>
                        rw [hF] at hlen
                        simp at hlen
                      | cons y ys =>
                        rw [hF] at he
                        cases he
                  rcases hfp (first :: rest) first rest m₀ rfl rfl hfm
                      (by rw [hsd]; rfl) hk hemp0 with hldn | hne
                  · -- loaddata fails for configuration reasons — on any table
                    have hnone : loaddata known F (first :: rest) = none := by
                      rw [loaddata] at hldn ⊢
                      by_cases hall : ((first :: rest).all (fixRecordOk known)) = true
                      · rw [if_pos hall] at hldn
                        cases hldn
                      · rw [if_neg hall]
                    rw [hnone]
                  · exact absurd he hne
                · rw [if_neg he]
              · rw [if_neg hk]

theorem fixturesFold_noop (known : List String) (files : List FixtureFile)
    (F : FixTables) (h : ∀ f ∈ files, loadFixtureFile known F f = F) :
    files.foldl (loadFixtureFile known) F = F := by
  induction files with
  | nil => rfl
  | cons f fs ih =>
    rw [List.foldl_cons, h f (by simp)]
    exact ih (fun g hg => h g (by simp [hg]))

theorem length_pos_not_isEmpty {α : Type} (l : List α) (h : 1 ≤ l.length) :
    ¬ l.isEmpty = true := by
  cases l with
  | nil => simp at h
  | cons x xs => simp

theorem loadFixtureFile_trigger (known : List String) (tabs : FixTables)
    (data : List JVal) (first : JVal) (rest : List JVal) (m : String)
    (hdata : data = first :: rest) (hfm : fixRecordModel first = some m)
    (hsplit : (splitDot m).length = 2) (hk : known.contains m = true)
    (hall : data.all (fixRecordOk known) = true) :
    1 ≤ ((Table.atKey (loadFixtureFile known tabs (.valid data)) m).getD []).length := by
  obtain ⟨a, b, hsd⟩ : ∃ a b, splitDot m = [a, b] := by
    cases hsd : splitDot m with
    | nil => rw [hsd] at hsplit; simp at hsplit
    | cons x xs =>
      cases xs with
      | nil => rw [hsd] at hsplit; simp at hsplit
      | cons y ys =>
        cases ys with
        | nil => exact ⟨x, y, rfl⟩
        | cons z zs => rw [hsd] at hsplit; simp at hsplit
  subst hdata
  simp only [loadFixtureFile, hfm, hsd, hk, if_true]
  by_cases he : ((Table.atKey tabs m).getD []).isEmpty = true
  · rw [if_pos he, loaddata_eq_fold known tabs _ hall]
    exact loaddata_fold_trigger (first :: rest) tabs first m (by simp) hfm
  · rw [if_neg he]
    cases h0 : (Table.atKey tabs m).getD [] with
    | nil => rw [h0] at he; simp at he
    | cons x xs => simp

theorem fixturesFold_trigger (known : List String) (files : List FixtureFile)
    (tabs : FixTables) (data : List JVal) (first : JVal) (rest : List JVal) (m : String)
    (hf : FixtureFile.valid data ∈ files) (hdata : data = first :: rest)
    (hfm : fixRecordModel first = some m) (hsplit : (splitDot m).length = 2)
    (hk : known.contains m = true) (hall : data.all (fixRecordOk known) = true) :
    ¬ ((Table.atKey (files.foldl (loadFixtureFile known) tabs) m).getD []).isEmpty = true := by
  induction files generalizing tabs with
  | nil => simp at hf
  | cons g gs ih =>
    rw [List.foldl_cons]
    rcases List.mem_cons.mp hf with hg | hg
    · rw [← hg]
      apply length_pos_not_isEmpty
      refine Nat.le_trans ?_ (fixturesFold_len_mono known gs (loadFixtureFile known tabs (.valid data)) m)
      exact loadFixtureFile_trigger known tabs data first rest m hdata hfm hsplit hk hall
    · exact ih (loadFixtureFile known tabs g) hg

/-- Replaying the whole fixture pass on its own output changes
nothing: every file either already loaded (its trigger table is now
non-empty), was skipped for a reason that does not depend on the
database, or found its table already populated. -/
theorem fixturesLoad_replay (known : List String) (dir : Option (List FixtureFile))
    (tabs : FixTables) :
    fixturesLoad known dir (fixturesLoad known dir tabs) = fixturesLoad known dir tabs := by
  cases dir with
  | none => rfl
  | some files =>
    show files.foldl (loadFixtureFile known) (files.foldl (loadFixtureFile known) tabs) =
      files.foldl (loadFixtureFile known) tabs
    apply fixturesFold_noop
    intro f hf
    apply loadFixtureFile_noop known tabs _ f
    · intro m
      exact fixturesFold_len_mono known files tabs m
    · intro data first rest m hfv hdata hfm hsplit hk hemp
      by_cases hall : (data.all (fixRecordOk known)) = true
      · refine Or.inr ?_
        subst hfv
        exact fixturesFold_trigger known files tabs data first rest m hf hdata hfm
          hsplit hk hall
      · refine Or.inl ?_
        rw [loaddata, if_neg hall]

theorem install_fields (cfg : InstallConfig) (db : DB) :
    (install cfg db).apps = (createAppTable (appLookupOf cfg) db.apps).1 ∧
    (install cfg db).appSettings =
      (settingsLoad cfg.app_name cfg.settingsFile db.appSettings).1 ∧
    (install cfg db).contentTypes = (permissionsLoad cfg.app_name cfg.app_label
      cfg.verbose_name cfg.permissionsFile (createAppTable (appLookupOf cfg) db.apps).1
      db.contentTypes db.perms db.appPerms).1 ∧
    (install cfg db).perms = (permissionsLoad cfg.app_name cfg.app_label
      cfg.verbose_name cfg.permissionsFile (createAppTable (appLookupOf cfg) db.apps).1
      db.contentTypes db.perms db.appPerms).2.1 ∧
    (install cfg db).appPerms = (permissionsLoad cfg.app_name cfg.app_label
      cfg.verbose_name cfg.permissionsFile (createAppTable (appLookupOf cfg) db.apps).1
      db.contentTypes db.perms db.appPerms).2.2.1 ∧
    (install cfg db).tasksState = (tasksLoad cfg.tasksFile db.tasksState).1 ∧
    (install cfg db).fixTables =
      fixturesLoad cfg.knownModels cfg.fixturesDir db.fixTables :=
  ⟨rfl, rfl, rfl, rfl, rfl, rfl, rfl⟩

/-- C1: running the installer a second time on identical configuration
files leaves every claimed record set — App rows, AppSettings,
content types, permissions, the App-permission links, crontab and
interval schedules with their PeriodicTask rows, and the fixture
tables — exactly as the first run left them, assuming the database's
own uniqueness invariants (unique AppSetting `(app, name)` keys, unique
PeriodicTask names, unique content types) and uniquely named task
entries (YAML mapping keys are unique). -/
theorem install_idempotent (cfg : InstallConfig) (db : DB)
    (hset : (Table.keys db.appSettings).Nodup)
    (hpts : (Table.keys db.tasksState.periodicTasks).Nodup)
    (hcts : db.contentTypes.Nodup)
    (hnames : ((tasksFileEntries cfg.tasksFile).map (·.1)).Nodup) :
    (install cfg (install cfg db)).apps = (install cfg db).apps ∧
    (install cfg (install cfg db)).appSettings = (install cfg db).appSettings ∧
    (install cfg (install cfg db)).contentTypes = (install cfg db).contentTypes ∧
    (install cfg (install cfg db)).perms = (install cfg db).perms ∧
    (install cfg (install cfg db)).appPerms = (install cfg db).appPerms ∧
    (install cfg (install cfg db)).tasksState = (install cfg db).tasksState ∧
    (install cfg (install cfg db)).fixTables = (install cfg db).fixTables := by
  obtain ⟨ha, hs, hc, hp, hl, ht, hx⟩ := install_fields cfg db
  obtain ⟨ha2, hs2, hc2, hp2, hl2, ht2, hx2⟩ := install_fields cfg (install cfg db)
  have hperm := permissionsLoad_replay cfg.app_name cfg.app_label cfg.verbose_name
    cfg.permissionsFile (createAppTable (appLookupOf cfg) db.apps).1
    db.contentTypes db.perms db.appPerms hcts
  refine ⟨?_, ?_, ?_, ?_, ?_, ?_, ?_⟩
  · rw [ha2, ha, createAppTable_replay]
  · rw [hs2, hs]
    exact settingsLoad_replay _ _ _ hset
  · rw [hc2, ha, createAppTable_replay, hc, hp, hl, hperm]
  · rw [hp2, ha, createAppTable_replay, hc, hp, hl, hperm]
  · rw [hl2, ha, createAppTable_replay, hc, hp, hl, hperm]
  · rw [ht2, ht]
    exact tasksLoad_replay _ _ hpts hnames
  · rw [hx2, hx]
    exact fixturesLoad_replay _ _ _

/-- A sub-application configuration exercising every loader: an option
record, a setting, a permission, a fixture, and one cron plus one
interval task. -/
def cfg1 : InstallConfig :=
  { app_name := "scholarmis.demo", app_label := "demo", verbose_name := "Demo",
    is_default := true, is_service := false, icon := some "demo.png",
    url := some "/demo/",
    models := [("Category", ["name", "slug", "code"])],
    knownModels := ["demo.category"],
    optionsFile := .valid (.obj [("Category", .arr [.obj [("name", .jstr "Math")]])]),
    settingsFile := .valid (.arr [.obj [("name", .jstr "theme"),
      ("value", .jstr "dark")]]),
    permissionsFile := .valid (.arr [.obj [("codename", .jstr "can_view"),
      ("name", .jstr "Can view")]]),
    fixturesDir := some [.valid [.obj [("model", .jstr "demo.category"),
      ("pk", .jnum 1)]]],
    tasksFile := .parsed (.obj [("cleanup", .obj [("task", .jstr "tasks.cleanup"),
      ("schedule", .jstr "0 4 * * 0")]),
      ("poll", .obj [("task", .jstr "tasks.poll"), ("schedule", .jstr "3600")])]) }

/-- Witness for C1: the uniqueness hypotheses hold on the empty
database with the full sample configuration, and a second run leaves
every claimed record set unchanged. -/
theorem install_idempotent_witness :
    ((Table.keys db0.appSettings).Nodup ∧
     (Table.keys db0.tasksState.periodicTasks).Nodup ∧
     db0.contentTypes.Nodup ∧
     ((tasksFileEntries cfg1.tasksFile).map (·.1)).Nodup) ∧
    ((install cfg1 (install cfg1 db0)).apps = (install cfg1 db0).apps ∧
     (install cfg1 (install cfg1 db0)).appSettings = (install cfg1 db0).appSettings ∧
     (install cfg1 (install cfg1 db0)).contentTypes = (install cfg1 db0).contentTypes ∧
     (install cfg1 (install cfg1 db0)).perms = (install cfg1 db0).perms ∧
     (install cfg1 (install cfg1 db0)).appPerms = (install cfg1 db0).appPerms ∧
     (install cfg1 (install cfg1 db0)).tasksState = (install cfg1 db0).tasksState ∧
     (install cfg1 (install cfg1 db0)).fixTables = (install cfg1 db0).fixTables) :=
  ⟨⟨by decide, by decide, by decide, by decide⟩,
   install_idempotent cfg1 db0 (by decide) (by decide) (by decide) (by decide)⟩
